import Mathlib

/-!
# Tileset view (`src/tiled/tilesetview.cpp`)

A shallow embedding of `TileDelegate` and `TilesetView`.

* Member variables of the view are the fields of `TilesetView`; the tiles the
  model hands out live in a store `TileId → Tile` next to it (`State`).
* Every member function returns an `Outcome`: the state it leaves, the calls
  it made on its collaborators (base class, viewport, zoomable, model, menu),
  in order, and whether it dereferenced a null `Tile *`.  A null dereference
  stops the function at that statement.
* What Qt and the tileset model compute (`indexAt`, `visualRect`, `tileAt`,
  `Tileset::isExternal`) is a parameter (`Env`).
* `int` coordinates are mathematical integers (signed overflow is undefined in
  C++ and far outside widget geometry).
* `qreal` values are IEEE 754 doubles, given by their rational value; every
  `qreal` operation rounds its exact result to the nearest double, and the
  conversion to `int` is undefined outside the range of `int`.
-/

namespace Tiled

/-! ## Qt value types -/

/-- The class `QPoint`. -/
structure QPoint where
  x : Int
  y : Int
deriving DecidableEq, Repr

/-- The class `QSize`. -/
structure QSize where
  width : Int
  height : Int
deriving DecidableEq, Repr

/-- The class `QRect`: integer rectangle stored as its inclusive edges. -/
structure QRect where
  x1 : Int
  y1 : Int
  x2 : Int
  y2 : Int
deriving DecidableEq, Repr

namespace QRect

def left (r : QRect) : Int := r.x1
def top (r : QRect) : Int := r.y1
def right (r : QRect) : Int := r.x2
def bottom (r : QRect) : Int := r.y2
def width (r : QRect) : Int := r.x2 - r.x1 + 1
def height (r : QRect) : Int := r.y2 - r.y1 + 1

def adjusted (r : QRect) (dx1 dy1 dx2 dy2 : Int) : QRect :=
  ⟨r.x1 + dx1, r.y1 + dy1, r.x2 + dx2, r.y2 + dy2⟩

def setTop (r : QRect) (pos : Int) : QRect := { r with y1 := pos }
def setRight (r : QRect) (pos : Int) : QRect := { r with x2 := pos }

def topLeft (r : QRect) : QPoint := ⟨r.x1, r.y1⟩
def topRight (r : QRect) : QPoint := ⟨r.x2, r.y1⟩
def bottomLeft (r : QRect) : QPoint := ⟨r.x1, r.y2⟩
def bottomRight (r : QRect) : QPoint := ⟨r.x2, r.y2⟩

/-- `QRect::center()`: `QPoint((x1+x2)/2, (y1+y2)/2)` with C++ integer
division (rounding towards zero). -/
def center (r : QRect) : QPoint := ⟨Int.tdiv (r.x1 + r.x2) 2, Int.tdiv (r.y1 + r.y2) 2⟩

end QRect

/-- A cell of the table: the row and column of a valid `QModelIndex`. -/
structure Cell where
  row : Nat
  column : Nat
deriving DecidableEq, Repr

/-- The class `QModelIndex`: `none` is the invalid index `QModelIndex()`. -/
abbrev QModelIndex := Option Cell

/-- `QModelIndex::isValid()`. -/
def QModelIndex.isValid (i : QModelIndex) : Bool := i.isSome

/-! ## Qt flag values -/

def Qt.LeftButton : Nat := 0x00000001
def Qt.ControlModifier : Nat := 0x04000000
def Qt.Horizontal : Nat := 0x1
def Qt.Vertical : Nat := 0x2
def QItemSelectionModel.Clear : Nat := 0x0001
def QItemSelectionModel.Select : Nat := 0x0002
def QItemSelectionModel.Current : Nat := 0x0010
def QItemSelectionModel.SelectCurrent : Nat :=
  QItemSelectionModel.Select ||| QItemSelectionModel.Current

/-! ## Events -/

/-- The members of `QMouseEvent` the view reads. -/
structure QMouseEvent where
  pos : QPoint
  button : Nat
  buttons : Nat
deriving DecidableEq, Repr

/-- The members of `QWheelEvent` the view reads. -/
structure QWheelEvent where
  modifiers : Nat
  orientation : Nat
  delta : Int
deriving DecidableEq, Repr

/-- The members of `QContextMenuEvent` the view reads. -/
structure QContextMenuEvent where
  pos : QPoint
  globalPos : QPoint
deriving DecidableEq, Repr

/-! ## Tiles -/

/-- Identity of a `Tile` object (a non-null `Tile *`). -/
abbrev TileId := Nat

/-- Modelled from the spec: the class `Tile` (declared in `tile.h`, not part of
this file) as far as terrain goes, a terrain identifier for each of the four
corners of the tile. -/
structure Tile where
  cornerTerrain : Fin 4 → Int

/-- Modelled from the spec: `Tile::cornerTerrainId(corner)`, the terrain
identifier assigned to that corner. -/
def Tile.cornerTerrainId (t : Tile) (corner : Fin 4) : Int := t.cornerTerrain corner

/-- Modelled from the spec: `Tile::setCornerTerrain(corner, terrainId)`, which
assigns the terrain identifier to the corner with that number. -/
def Tile.setCornerTerrain (t : Tile) (corner : Int) (terrainId : Int) : Tile :=
  ⟨fun k => if (k.val : Int) = corner then terrainId else t.cornerTerrain k⟩

/-! ## Collaborators -/

/-- What the surrounding objects answer while the view handles an event: the
table geometry of `QTableView`, the tileset model and the preferences. -/
structure Env where
  /-- `QTableView::indexAt(pos)`. -/
  indexAt : QPoint → QModelIndex
  /-- `QTableView::visualRect(index)`. -/
  visualRect : QModelIndex → QRect
  /-- `TilesetModel::tileAt(index)`; `none` is the null pointer. -/
  tileAt : QModelIndex → Option TileId
  /-- `TilesetModel::tileset()->isExternal()`. -/
  isExternal : Bool

/-- Slots that the context menu connects its actions to. -/
inductive Slot
  | editTileProperties
  | setShowTilesetGrid
deriving DecidableEq, Repr

/-- A `QAction` as the context menu sets it up. A fresh action is enabled,
not checkable and not checked. -/
structure QAction where
  text : String
  icon : Option String := none
  themeIcon : Option String := none
  enabled : Bool := true
  checkable : Bool := false
  checked : Bool := false
  triggered : Option Slot := none
  toggled : Option Slot := none
deriving DecidableEq, Repr

/-- An entry of a `QMenu`. -/
inductive MenuItem
  | action (a : QAction)
  | separator
deriving DecidableEq, Repr

/-- A call the view makes on a collaborator. -/
inductive Call
  /-- `setMouseTracking(enable)`. -/
  | setMouseTracking (enable : Bool)
  /-- `viewport()->update()`: repaint of the whole viewport. -/
  | viewportUpdate
  /-- `update(index)`: repaint of one cell. -/
  | update (index : QModelIndex)
  /-- `qDebug() << pos << center`. -/
  | qDebug (pos center : QPoint)
  /-- `QTableView::mouseMoveEvent(event)`. -/
  | tableViewMouseMoveEvent (event : QMouseEvent)
  /-- `QTableView::wheelEvent(event)`. -/
  | tableViewWheelEvent (event : QWheelEvent)
  /-- `mZoomable->handleWheelDelta(delta)`. -/
  | handleWheelDelta (delta : Int)
  /-- `selectionModel()->setCurrentIndex(index, command)`. -/
  | setCurrentIndex (index : QModelIndex) (command : Nat)
  /-- `menu.exec(globalPos)` on a menu with these entries. -/
  | menuExec (menu : List MenuItem) (globalPos : QPoint)
  /-- `tilesetModel()->tilesetChanged()`. -/
  | tilesetChanged
deriving DecidableEq, Repr

/-! ## The view -/

/-- Member variables of `TilesetView` that change after construction. -/
structure TilesetView where
  mDrawGrid : Bool
  mEditTerrain : Bool
  mTerrainId : Int
  mHoveredIndex : QModelIndex
  mHoveredCorner : Int
deriving DecidableEq, Repr

/-- The view together with the tiles of its model. -/
structure State where
  view : TilesetView
  tiles : TileId → Tile

/-- Result of running a member function. -/
structure Outcome where
  state : State
  /-- calls made on collaborators, in order -/
  calls : List Call := []
  /-- a null `Tile *` was dereferenced -/
  nullDeref : Bool := false

namespace TilesetView

/-- The constructor. `mHoveredCorner` has no initialiser: its first value is
indeterminate and is passed in. `showTilesetGrid` is the preference read
into `mDrawGrid`. -/
def construct (showTilesetGrid : Bool) (indeterminate : Int) : TilesetView :=
  { mDrawGrid := showTilesetGrid
    mEditTerrain := false
    mTerrainId := -1
    mHoveredIndex := none
    mHoveredCorner := indeterminate }

def drawGrid (v : TilesetView) : Bool := v.mDrawGrid
def isEditTerrain (v : TilesetView) : Bool := v.mEditTerrain
def terrainId (v : TilesetView) : Int := v.mTerrainId
def hoveredIndex (v : TilesetView) : QModelIndex := v.mHoveredIndex
def hoveredCorner (v : TilesetView) : Int := v.mHoveredCorner

def setEditTerrain (s : State) (enabled : Bool) : Outcome :=
  if s.view.mEditTerrain = enabled then
    { state := s }
  else
    { state := { s with view := { s.view with mEditTerrain := enabled } }
      calls := [Call.setMouseTracking true, Call.viewportUpdate] }

def setTerrainId (s : State) (terrainId : Int) : Outcome :=
  if s.view.mTerrainId = terrainId then
    { state := s }
  else
    { state := { s with view := { s.view with mTerrainId := terrainId } }
      calls := if s.view.mEditTerrain then [Call.viewportUpdate] else [] }

def applyTerrain (env : Env) (s : State) : Outcome :=
  if !QModelIndex.isValid s.view.mHoveredIndex then
    { state := s }
  else
    match env.tileAt s.view.mHoveredIndex with
    | none => { state := s, nullDeref := true }
    | some tile =>
      let modified := (s.tiles tile).setCornerTerrain s.view.mHoveredCorner s.view.mTerrainId
      { state := { s with tiles := Function.update s.tiles tile modified } }

def mousePressEvent (env : Env) (s : State) (event : QMouseEvent) : Outcome :=
  if event.button = Qt.LeftButton then
    applyTerrain env s
  else
    { state := s }

def mouseMoveEvent (env : Env) (s : State) (event : QMouseEvent) : Outcome :=
  if !s.view.mEditTerrain then
    { state := s, calls := [Call.tableViewMouseMoveEvent event] }
  else
    let pos := event.pos
    let hoveredIndex := env.indexAt pos
    let center := (env.visualRect hoveredIndex).center
    let hoveredCorner : Int :=
      if QModelIndex.isValid hoveredIndex then
        (if pos.x > center.x then 1 else 0) + (if pos.y > center.y then 2 else 0)
      else 0
    let debug := if QModelIndex.isValid hoveredIndex then [Call.qDebug pos center] else []
    let hovered : Outcome :=
      if s.view.mHoveredIndex ≠ hoveredIndex ∨ s.view.mHoveredCorner ≠ hoveredCorner then
        let previousHoveredIndex := s.view.mHoveredIndex
        { state := { s with view :=
            { s.view with mHoveredIndex := hoveredIndex, mHoveredCorner := hoveredCorner } }
          calls := debug
            ++ (if QModelIndex.isValid previousHoveredIndex then
                  [Call.update previousHoveredIndex] else [])
            ++ (if previousHoveredIndex ≠ hoveredIndex ∧ QModelIndex.isValid hoveredIndex then
                  [Call.update hoveredIndex] else []) }
      else
        { state := s, calls := debug }
    if event.buttons &&& Qt.LeftButton ≠ 0 then
      let applied := applyTerrain env hovered.state
      { applied with calls := hovered.calls ++ applied.calls }
    else
      hovered

def leaveEvent (s : State) : Outcome :=
  if !s.view.mEditTerrain then
    { state := s }
  else if QModelIndex.isValid s.view.mHoveredIndex then
    let previousHoveredIndex := s.view.mHoveredIndex
    { state := { s with view := { s.view with mHoveredIndex := none } }
      calls := [Call.update previousHoveredIndex] }
  else
    { state := s }

def wheelEvent (s : State) (event : QWheelEvent) : Outcome :=
  if event.modifiers &&& Qt.ControlModifier ≠ 0 ∧ event.orientation = Qt.Vertical then
    { state := s, calls := [Call.handleWheelDelta event.delta] }
  else
    { state := s, calls := [Call.tableViewWheelEvent event] }

def contextMenuEvent (env : Env) (s : State) (event : QContextMenuEvent) : Outcome :=
  let index := env.indexAt event.pos
  let tile := env.tileAt index
  let isExternal := env.isExternal
  let propIcon := ":images/16x16/document-properties.png"
  let tileMenu : List MenuItem :=
    if tile.isSome then
      [MenuItem.action
          { text := "Tile &Properties...", icon := some propIcon
            themeIcon := some "document-properties"
            enabled := !isExternal
            triggered := some Slot.editTileProperties },
        MenuItem.separator]
    else []
  let toggleGrid : QAction :=
    { text := "Show &Grid", checkable := true, checked := s.view.mDrawGrid
      toggled := some Slot.setShowTilesetGrid }
  let menu := tileMenu ++ [MenuItem.separator, MenuItem.action toggleGrid]
  { state := s
    calls :=
      (if tile.isSome then
        [Call.setCurrentIndex index
          (QItemSelectionModel.SelectCurrent ||| QItemSelectionModel.Clear)]
       else [])
      ++ [Call.menuExec menu event.globalPos] }

def setDrawGrid (s : State) (drawGrid : Bool) : Outcome :=
  { state := { s with view := { s.view with mDrawGrid := drawGrid } }
    calls := [Call.tilesetChanged] }

def adjustScale (s : State) : Outcome :=
  { state := s, calls := [Call.tilesetChanged] }

end TilesetView

/-! ## Sequences of calls on the view -/

/-- The calls that drive terrain painting. -/
inductive Event
  | setEditTerrain (enabled : Bool)
  | setTerrainId (terrainId : Int)
  | mouseMoveEvent (event : QMouseEvent)
  | leaveEvent
  | mousePressEvent (event : QMouseEvent)
deriving DecidableEq, Repr

/-- One call on the view. -/
def step (env : Env) (s : State) : Event → Outcome
  | Event.setEditTerrain enabled => TilesetView.setEditTerrain s enabled
  | Event.setTerrainId terrainId => TilesetView.setTerrainId s terrainId
  | Event.mouseMoveEvent event => TilesetView.mouseMoveEvent env s event
  | Event.leaveEvent => TilesetView.leaveEvent s
  | Event.mousePressEvent event => TilesetView.mousePressEvent env s event

/-- The calls one after the other; a null dereference ends the run. -/
def run (env : Env) (s : State) : List Event → Outcome
  | [] => { state := s }
  | e :: es =>
    let o := step env s e
    if o.nullDeref then o
    else
      let r := run env o.state es
      { r with calls := o.calls ++ r.calls }

/-! ## The delegate -/

/-! ### `qreal` arithmetic

`qreal` is `double`: IEEE 754 binary64. A finite double is represented by its
value, a rational number; the result of an operation is the exact result
rounded to the nearest double, ties to the even significand. -/

/-- Rounding to the nearest integer, ties to the even one. -/
def roundHalfEven (t : ℚ) : Int :=
  if t - ⌊t⌋ < 1 / 2 then ⌊t⌋
  else if 1 / 2 < t - ⌊t⌋ then ⌊t⌋ + 1
  else if ⌊t⌋ % 2 = 0 then ⌊t⌋
  else ⌊t⌋ + 1

/-- Exponent of the binade of `q`: `⌊log₂ |q|⌋`, held at -1022 for subnormal
numbers. -/
def binade (q : ℚ) : Int := max (Int.log 2 |q|) (-1022)

/-- Spacing of the doubles around `q`: 53 significant bits. -/
def ulp (q : ℚ) : ℚ := (2 : ℚ) ^ (binade q - 52)

/-- The double nearest to the exact value `q`, ties to even; `none` when the
rounded value overflows the exponent range (infinity). -/
def roundDouble (q : ℚ) : Option ℚ :=
  let r : ℚ := (roundHalfEven (q / ulp q) : ℚ) * ulp q
  if |r| < 2 ^ 1024 then some r else none

/-- Conversion of a `qreal` to `int` (32 bits): the fractional part is
discarded; undefined (`none`) when the result is not an `int`. -/
def qrealToInt (q : ℚ) : Option Int :=
  let t : Int := if 0 ≤ q then ⌊q⌋ else ⌈q⌉
  if -2147483648 ≤ t ∧ t ≤ 2147483647 then some t else none

/-- Brushes and pen colours used by `paint`. -/
inductive Colour
  | highlight
  | highlightDarker
  | gray
  | darkGray
deriving DecidableEq, Repr

/-- Render hints used by `paint`. -/
inductive RenderHint
  | SmoothPixmapTransform
  | Antialiasing
deriving DecidableEq, Repr

/-- A call `paint` makes on the `QPainter`. -/
inductive PainterCall
  | setRenderHint (hint : RenderHint)
  | drawPixmap (target : QRect)
  | setOpacity (opacity : ℚ)
  | fillRect (rect : QRect) (brush : Colour)
  | save
  | restore
  | setBrush (brush : Colour)
  | setPenNoPen
  | setPen (colour : Colour) (width : Int)
  | setClipRect (rect : QRect)
  | drawEllipse (center : QPoint) (rx ry : Int)
deriving DecidableEq, Repr

/-- What `paint` reads from `QStyleOptionViewItem` and from the model's
`DisplayRole` pixmap. -/
structure PaintInput where
  rect : QRect
  selected : Bool
  imageWidth : Int
  imageHeight : Int
  smoothTransform : Bool
  painterOpacity : ℚ

/-- Result of `paint`: the painter calls made and whether a null `Tile *` was
dereferenced. -/
structure PaintOutcome where
  calls : List PainterCall
  nullDeref : Bool := false

namespace TileDelegate

/-- The lines of `paint` that compute `targetRect` (bottom- and left-aligned). -/
def targetRect (rect : QRect) (imageWidth imageHeight : Int) (drawGrid : Bool) : QRect :=
  let extra : Int := if drawGrid then 1 else 0
  let targetRect := rect.adjusted 0 0 (-extra) (-extra)
  let targetRect := targetRect.setTop (targetRect.top + targetRect.height - imageHeight)
  let targetRect := targetRect.setRight (targetRect.right - targetRect.width + imageWidth)
  targetRect

/-- The `switch` of `paint` that places a corner marker; `pos` stays the
default `QPoint()` for any other number. -/
def cornerPos (rect : QRect) (corner : Int) : QPoint :=
  if corner = 0 then rect.topLeft
  else if corner = 1 then rect.topRight
  else if corner = 2 then rect.bottomLeft
  else if corner = 3 then rect.bottomRight
  else ⟨0, 0⟩

/-- The painter calls that draw one corner marker. -/
def marker (rect : QRect) (extra : Int) (pos : QPoint) (brush pen : Colour) :
    List PainterCall :=
  [ PainterCall.save
  , PainterCall.setBrush brush
  , PainterCall.setPenNoPen
  , PainterCall.setClipRect (rect.adjusted 0 0 (-extra) (-extra))
  , PainterCall.setRenderHint RenderHint.Antialiasing
  , PainterCall.setOpacity (1 / 2)
  , PainterCall.drawEllipse pos (Int.tdiv rect.width 2) (Int.tdiv rect.height 2)
  , PainterCall.setOpacity 1
  , PainterCall.setPen pen 2
  , PainterCall.drawEllipse pos (Int.tdiv rect.width 4) (Int.tdiv rect.height 4)
  , PainterCall.restore ]

def paint (env : Env) (s : State) (option : PaintInput) (index : QModelIndex) :
    PaintOutcome :=
  let extra : Int := if s.view.drawGrid then 1 else 0
  let targetRect := targetRect option.rect option.imageWidth option.imageHeight s.view.drawGrid
  let image : List PainterCall :=
    (if option.smoothTransform then
      [PainterCall.setRenderHint RenderHint.SmoothPixmapTransform] else [])
    ++ [PainterCall.drawPixmap targetRect]
    ++ (if option.selected then
          [ PainterCall.setOpacity (1 / 2)
          , PainterCall.fillRect targetRect Colour.highlight
          , PainterCall.setOpacity option.painterOpacity ]
        else [])
  if s.view.isEditTerrain then
    match env.tileAt index with
    | none => { calls := image, nullDeref := true }
    | some tile =>
      let corners : List PainterCall :=
        (List.finRange 4).flatMap fun corner =>
          if (s.tiles tile).cornerTerrainId corner = s.view.terrainId then
            marker option.rect extra (cornerPos option.rect corner.val) Colour.gray
              Colour.darkGray
          else []
      let hover : List PainterCall :=
        if index = s.view.hoveredIndex then
          marker option.rect extra (cornerPos option.rect s.view.hoveredCorner)
            Colour.highlight Colour.highlightDarker
        else []
      { calls := image ++ corners ++ hover }
  else
    { calls := image }

/-- One argument of `QSize(...)` in `sizeHint`: `length * zoom + extra` passed
as an `int`. The `int` operands (32 bits) convert to `double` exactly; the
product and the sum are each rounded. `zoom` is the value of a finite double. -/
def scaledLength (tileLength : Int) (zoom : ℚ) (extra : Int) : Option Int :=
  (roundDouble ((tileLength : ℚ) * zoom)).bind fun scaled =>
    (roundDouble (scaled + (extra : ℚ))).bind qrealToInt

def sizeHint (tileWidth tileHeight : Int) (zoom : ℚ) (drawGrid : Bool) : Option QSize :=
  let extra : Int := if drawGrid then 1 else 0
  (scaledLength tileWidth zoom extra).bind fun width =>
    (scaledLength tileHeight zoom extra).bind fun height =>
      some ⟨width, height⟩

end TileDelegate

/-! ## A small tileset used to run the definitions

One row of two cells of 32x32 pixels; the first cell holds tile 0, the second
cell is empty. No terrain is assigned yet (identifier -1 everywhere). -/

def sampleEnv : Env where
  indexAt p :=
    if 0 ≤ p.x ∧ p.x < 64 ∧ 0 ≤ p.y ∧ p.y < 32 then some ⟨0, (p.x / 32).toNat⟩ else none
  visualRect
    | some c => ⟨32 * c.column, 32 * c.row, 32 * c.column + 31, 32 * c.row + 31⟩
    | none => ⟨0, 0, -1, -1⟩
  tileAt
    | some ⟨0, 0⟩ => some 0
    | _ => none
  isExternal := false

def sampleState : State where
  view := TilesetView.construct true 0
  tiles _ := ⟨fun _ => -1⟩

/-- The sample view while it hovers the bottom-right corner of the first cell
with terrain 5 selected. -/
def sampleHovering : State where
  view :=
    { mDrawGrid := true, mEditTerrain := true, mTerrainId := 5
      mHoveredIndex := some ⟨0, 0⟩, mHoveredCorner := 3 }
  tiles _ := ⟨fun _ => -1⟩

def leftPress : QMouseEvent := { pos := ⟨20, 20⟩, button := Qt.LeftButton, buttons := 1 }
def rightPress : QMouseEvent := { pos := ⟨20, 20⟩, button := 2, buttons := 2 }

/-- A mouse move over the lower right quarter of the first cell, no button
held. -/
def hoverMove : QMouseEvent := { pos := ⟨20, 20⟩, button := 0, buttons := 0 }

/-- Enter terrain mode, pick terrain 5, hover the first cell, leave terrain
mode again. -/
def hoverThenDisable : List Event :=
  [ Event.setEditTerrain true
  , Event.setTerrainId 5
  , Event.mouseMoveEvent hoverMove
  , Event.setEditTerrain false ]

def menuEvent : QContextMenuEvent := { pos := ⟨20, 20⟩, globalPos := ⟨420, 320⟩ }

/-- Whether the menu has an action with this text. -/
def hasAction (menu : List MenuItem) (text : String) : Bool :=
  menu.any fun item =>
    match item with
    | MenuItem.action a => a.text == text
    | MenuItem.separator => false

/-- The actions of the menu with this text. -/
def actionsNamed (menu : List MenuItem) (text : String) : List QAction :=
  menu.filterMap fun item =>
    match item with
    | MenuItem.action a => if a.text = text then some a else none
    | MenuItem.separator => none

/-- The menu built by `contextMenuEvent`: the entries of the `menu.exec` call. -/
def shownMenu (calls : List Call) : List MenuItem :=
  calls.flatMap fun call =>
    match call with
    | Call.menuExec menu _ => menu
    | _ => []

/-- The `setCurrentIndex` calls among the calls. -/
def currentIndexCalls (calls : List Call) : List (QModelIndex × Nat) :=
  calls.filterMap fun call =>
    match call with
    | Call.setCurrentIndex index command => some (index, command)
    | _ => none

/-- A selected 33x33 cell (32x32 tile plus grid line) showing a 32x32 image. -/
def samplePaintInput : PaintInput :=
  { rect := ⟨0, 0, 32, 32⟩, selected := true, imageWidth := 32, imageHeight := 32
    smoothTransform := false, painterOpacity := 1 }

/-- The cells scheduled for repaint: the arguments of the `update(index)`
calls, in order. -/
def repaintedIndexes (calls : List Call) : List QModelIndex :=
  calls.filterMap fun call =>
    match call with
    | Call.update index => some index
    | _ => none

/-- The double nearest to 1/49, a zoom factor. -/
def zoom49 : ℚ := 5882252574524729 / 288230376151711744

def ctrlWheel : QWheelEvent :=
  { modifiers := Qt.ControlModifier, orientation := Qt.Vertical, delta := 120 }

def plainWheel : QWheelEvent := { modifiers := 0, orientation := Qt.Vertical, delta := 120 }

/-! ## Theorems -/

section Claims

open TilesetView

/-- A flag test `flags & 2^k` is non-zero exactly when bit `k` of `flags` is set. -/
theorem and_two_pow_ne_zero (n k : Nat) : n &&& 2 ^ k ≠ 0 ↔ n.testBit k = true := by
  constructor
  · intro h
    by_contra hbit
    apply h
    apply Nat.eq_of_testBit_eq
    intro i
    by_cases hik : k = i
    · subst hik
      simp [Nat.testBit_and, hbit]
    · simp [Nat.testBit_and, Nat.testBit_two_pow, hik]
  · intro hbit h
    have hk : (n &&& 2 ^ k).testBit k = true := by
      simp [Nat.testBit_and, Nat.testBit_two_pow, hbit]
    rw [h] at hk
    simp at hk

/-- `applyTerrain` touches no member variable of the view. -/
theorem applyTerrain_view (env : Env) (s : State) :
    (applyTerrain env s).state.view = s.view := by
  unfold applyTerrain
  split
  · rfl
  · split <;> rfl

/-- `applyTerrain` makes no call on a collaborator. -/
theorem applyTerrain_calls (env : Env) (s : State) : (applyTerrain env s).calls = [] := by
  unfold applyTerrain
  split
  · rfl
  · split <;> rfl

/-- `applyTerrain` on an invalid hovered index returns at once. -/
theorem applyTerrain_invalid (env : Env) (s : State)
    (h : QModelIndex.isValid s.view.mHoveredIndex = false) :
    applyTerrain env s = { state := s } := by
  simp [applyTerrain, h]

/-- C1: in a state whose hovered index is valid and points at tile `T`, with
hovered corner `c` in 0..3 and selected terrain `t`, a left-button press sets
corner `c` of `T` to `t`, keeps the other three corners of `T` and every other
tile; a press with another button, or a left press while the hovered index is
invalid, changes no tile. -/
theorem mousePressEvent_assigns_hovered_corner (env : Env) (s : State)
    (event : QMouseEvent) :
    (∀ (T : TileId) (c : Fin 4),
        QModelIndex.isValid s.view.mHoveredIndex = true →
        env.tileAt s.view.mHoveredIndex = some T →
        s.view.mHoveredCorner = (c.val : Int) →
        event.button = Qt.LeftButton →
        (mousePressEvent env s event).nullDeref = false ∧
        ((mousePressEvent env s event).state.tiles T).cornerTerrainId c
          = s.view.mTerrainId ∧
        (∀ k : Fin 4, k ≠ c →
          ((mousePressEvent env s event).state.tiles T).cornerTerrainId k
            = (s.tiles T).cornerTerrainId k) ∧
        (∀ U : TileId, U ≠ T → (mousePressEvent env s event).state.tiles U = s.tiles U)) ∧
    (event.button ≠ Qt.LeftButton ∨ QModelIndex.isValid s.view.mHoveredIndex = false →
        (mousePressEvent env s event).state.tiles = s.tiles ∧
        (mousePressEvent env s event).nullDeref = false) := by
  refine ⟨?_, ?_⟩
  · intro T c hvalid htile hcorner hleft
    have hrun : mousePressEvent env s event =
        { state := ⟨s.view, Function.update s.tiles T
            ((s.tiles T).setCornerTerrain (c.val : Int) s.view.mTerrainId)⟩ } := by
      simp [mousePressEvent, applyTerrain, hleft, hvalid, htile, hcorner]
    rw [hrun]
    refine ⟨rfl, ?_, ?_, ?_⟩
    · simp [Tile.cornerTerrainId, Tile.setCornerTerrain]
    · intro k hne
      have hval : (k : Nat) ≠ (c : Nat) := fun h => hne (Fin.ext h)
      simp [Tile.cornerTerrainId, Tile.setCornerTerrain, hval]
    · intro U hne
      exact Function.update_noteq hne _ _
  · rintro (hbutton | hinvalid)
    · simp [mousePressEvent, hbutton]
    · simp [mousePressEvent, applyTerrain, hinvalid]

theorem mousePressEvent_assigns_hovered_corner_witness :
    ((mousePressEvent sampleEnv sampleHovering leftPress).state.tiles 0).cornerTerrainId 3 = 5 ∧
    (mousePressEvent sampleEnv sampleHovering rightPress).state.tiles
      = sampleHovering.tiles :=
  ⟨((mousePressEvent_assigns_hovered_corner sampleEnv sampleHovering leftPress).1 0 3
      rfl rfl rfl rfl).2.1,
   ((mousePressEvent_assigns_hovered_corner sampleEnv sampleHovering rightPress).2
      (Or.inl (by decide))).1⟩

/-- C2 fails on the code: after terrain mode was entered, terrain 5 picked,
the first cell hovered and terrain mode left again, `isEditTerrain()` is false
and the bottom-right corner of tile 0 still has terrain -1, yet a left-button
press assigns terrain 5 to it. -/
theorem mousePressEvent_paints_with_terrain_mode_off :
    (run sampleEnv sampleState hoverThenDisable).nullDeref = false ∧
    (run sampleEnv sampleState hoverThenDisable).state.view.isEditTerrain = false ∧
    ((run sampleEnv sampleState hoverThenDisable).state.tiles 0).cornerTerrainId 3 = -1 ∧
    (mousePressEvent sampleEnv (run sampleEnv sampleState hoverThenDisable).state
      leftPress).nullDeref = false ∧
    ((mousePressEvent sampleEnv (run sampleEnv sampleState hoverThenDisable).state
      leftPress).state.tiles 0).cornerTerrainId 3 = 5 := by
  decide

/-- The member variables after a mouse move in terrain mode: the hovered
index is the index under the mouse and the hovered corner is the quadrant
just computed, whether or not the two were different before. -/
theorem mouseMoveEvent_view (env : Env) (s : State) (event : QMouseEvent)
    (hedit : s.view.mEditTerrain = true) :
    (mouseMoveEvent env s event).state.view =
      { s.view with
        mHoveredIndex := env.indexAt event.pos
        mHoveredCorner :=
          if QModelIndex.isValid (env.indexAt event.pos) then
            (if event.pos.x > (env.visualRect (env.indexAt event.pos)).center.x then 1 else 0)
            + (if event.pos.y > (env.visualRect (env.indexAt event.pos)).center.y then 2 else 0)
          else 0 } := by
  unfold mouseMoveEvent
  have hmode : ¬((!s.view.mEditTerrain) = true) := by simp [hedit]
  rw [if_neg hmode]
  dsimp only
  generalize (if QModelIndex.isValid (env.indexAt event.pos) = true then
      (if event.pos.x > (env.visualRect (env.indexAt event.pos)).center.x then (1 : Int) else 0)
      + (if event.pos.y > (env.visualRect (env.indexAt event.pos)).center.y then 2 else 0)
    else 0) = corner
  by_cases hchange : s.view.mHoveredIndex ≠ env.indexAt event.pos ∨ s.view.mHoveredCorner ≠ corner
  · rw [if_pos hchange]
    by_cases hleft : event.buttons &&& Qt.LeftButton ≠ 0
    · rw [if_pos hleft]
      exact applyTerrain_view _ _
    · rw [if_neg hleft]
  · rw [if_neg hchange]
    have hsame := hchange
    simp only [not_or, not_not] at hsame
    have hkeep : s.view =
        { s.view with mHoveredIndex := env.indexAt event.pos, mHoveredCorner := corner } := by
      rw [← hsame.1, ← hsame.2]
    by_cases hleft : event.buttons &&& Qt.LeftButton ≠ 0
    · rw [if_pos hleft]
      exact (applyTerrain_view _ _).trans hkeep
    · rw [if_neg hleft]
      exact hkeep

/-- When `applyTerrain` dereferences a null pointer: the hovered index is valid
and the model has no tile there. -/
theorem applyTerrain_nullDeref (env : Env) (s : State) :
    (applyTerrain env s).nullDeref = true ↔
      QModelIndex.isValid s.view.mHoveredIndex = true ∧
        env.tileAt s.view.mHoveredIndex = none := by
  unfold applyTerrain
  by_cases hvalid : QModelIndex.isValid s.view.mHoveredIndex = true
  · cases htile : env.tileAt s.view.mHoveredIndex <;> simp [hvalid]
  · simp [hvalid]

/-- When a mouse move dereferences a null pointer: in terrain mode, with the
left button held, over a valid cell for which the model has no tile. The
hover state and the repaint calls are those of the statements before it. -/
theorem mouseMoveEvent_nullDeref (env : Env) (s : State) (event : QMouseEvent) :
    (mouseMoveEvent env s event).nullDeref = true ↔
      s.view.mEditTerrain = true ∧ event.buttons &&& Qt.LeftButton ≠ 0 ∧
        QModelIndex.isValid (env.indexAt event.pos) = true ∧
        env.tileAt (env.indexAt event.pos) = none := by
  by_cases hedit : s.view.mEditTerrain = true
  · unfold mouseMoveEvent
    have hmode : ¬((!s.view.mEditTerrain) = true) := by simp [hedit]
    rw [if_neg hmode]
    dsimp only
    generalize (if QModelIndex.isValid (env.indexAt event.pos) = true then
        (if event.pos.x > (env.visualRect (env.indexAt event.pos)).center.x then (1 : Int) else 0)
        + (if event.pos.y > (env.visualRect (env.indexAt event.pos)).center.y then 2 else 0)
      else 0) = corner
    by_cases hleft : event.buttons &&& Qt.LeftButton ≠ 0
    · rw [if_pos hleft]
      dsimp only
      rw [applyTerrain_nullDeref]
      by_cases hchange : s.view.mHoveredIndex ≠ env.indexAt event.pos ∨
          s.view.mHoveredCorner ≠ corner
      · rw [if_pos hchange]
        dsimp only
        exact ⟨fun h => ⟨hedit, hleft, h⟩, fun h => h.2.2⟩
      · rw [if_neg hchange]
        rw [not_or, not_not, not_not] at hchange
        dsimp only
        rw [hchange.1]
        exact ⟨fun h => ⟨hedit, hleft, h⟩, fun h => h.2.2⟩
    · rw [if_neg hleft]
      constructor
      · intro h
        split at h <;> exact absurd h (by simp)
      · intro h
        exact absurd h.2.1 hleft
  · have hrun : (mouseMoveEvent env s event).nullDeref = false := by
      simp [mouseMoveEvent, hedit]
    rw [hrun]
    simp [hedit]

/-- C4: a wheel event with the Control modifier held (bit 26 of the
modifiers) and vertical orientation passes its delta to
`Zoomable::handleWheelDelta` once and makes no other call, so nothing reaches
`QTableView::wheelEvent`; any other wheel event is passed unchanged to
`QTableView::wheelEvent` and makes no other call. The view state stays as it
was. -/
theorem wheelEvent_zooms_or_forwards (s : State) (event : QWheelEvent) :
    (event.modifiers.testBit 26 = true ∧ event.orientation = Qt.Vertical →
      (wheelEvent s event).calls = [Call.handleWheelDelta event.delta]) ∧
    (¬(event.modifiers.testBit 26 = true ∧ event.orientation = Qt.Vertical) →
      (wheelEvent s event).calls = [Call.tableViewWheelEvent event]) ∧
    (wheelEvent s event).state = s ∧
    (wheelEvent s event).nullDeref = false := by
  have hflag : event.modifiers &&& Qt.ControlModifier ≠ 0 ↔ event.modifiers.testBit 26 = true :=
    and_two_pow_ne_zero event.modifiers 26
  unfold wheelEvent
  by_cases h : event.modifiers.testBit 26 = true ∧ event.orientation = Qt.Vertical
  · rw [if_pos ⟨hflag.mpr h.1, h.2⟩]
    exact ⟨fun _ => rfl, fun hn => absurd h hn, rfl, rfl⟩
  · rw [if_neg fun hc => h ⟨hflag.mp hc.1, hc.2⟩]
    exact ⟨fun hp => absurd hp h, fun _ => rfl, rfl, rfl⟩

theorem wheelEvent_zooms_or_forwards_witness :
    (wheelEvent sampleState ctrlWheel).calls = [Call.handleWheelDelta 120] ∧
    (wheelEvent sampleState plainWheel).calls = [Call.tableViewWheelEvent plainWheel] :=
  ⟨(wheelEvent_zooms_or_forwards sampleState ctrlWheel).1 (by decide),
   (wheelEvent_zooms_or_forwards sampleState plainWheel).2.1 (by decide)⟩

/-- C5: the context menu has the "Tile Properties..." action exactly when the
model has a tile at the index under the event position. When it has, that
index is handed to `setCurrentIndex` with the command `SelectCurrent | Clear`
(clear the selection, select the index, make it current) before the menu is
shown, and the action is enabled exactly when the tileset is not external;
otherwise no selection call is made. The "Show Grid" action is there in every
case, checkable, and checked exactly when `drawGrid()` holds. -/
theorem contextMenuEvent_menu (env : Env) (s : State) (event : QContextMenuEvent) :
    (hasAction (shownMenu (contextMenuEvent env s event).calls) "Tile &Properties..." = true
      ↔ (env.tileAt (env.indexAt event.pos)).isSome = true) ∧
    ((env.tileAt (env.indexAt event.pos)).isSome = true →
      (contextMenuEvent env s event).calls =
        [ Call.setCurrentIndex (env.indexAt event.pos)
            (QItemSelectionModel.SelectCurrent ||| QItemSelectionModel.Clear)
        , Call.menuExec (shownMenu (contextMenuEvent env s event).calls) event.globalPos ] ∧
      ∃ a : QAction,
        actionsNamed (shownMenu (contextMenuEvent env s event).calls) "Tile &Properties..." = [a] ∧
        (a.enabled = true ↔ env.isExternal = false)) ∧
    ((env.tileAt (env.indexAt event.pos)).isSome = false →
      (contextMenuEvent env s event).calls =
        [Call.menuExec (shownMenu (contextMenuEvent env s event).calls) event.globalPos]) ∧
    (∃ g : QAction,
      actionsNamed (shownMenu (contextMenuEvent env s event).calls) "Show &Grid" = [g] ∧
      g.checkable = true ∧ g.checked = s.view.drawGrid) ∧
    ((QItemSelectionModel.SelectCurrent ||| QItemSelectionModel.Clear).testBit 0 = true ∧
      (QItemSelectionModel.SelectCurrent ||| QItemSelectionModel.Clear).testBit 1 = true ∧
      (QItemSelectionModel.SelectCurrent ||| QItemSelectionModel.Clear).testBit 4 = true) ∧
    (contextMenuEvent env s event).state = s := by
  cases htile : env.tileAt (env.indexAt event.pos) with
  | none =>
    refine ⟨?_, ?_, ?_, ?_, by decide, rfl⟩
    · simp [contextMenuEvent, htile, shownMenu, hasAction]
    · simp
    · intro _
      simp [contextMenuEvent, htile, shownMenu]
    · simp [contextMenuEvent, htile, shownMenu, actionsNamed, drawGrid]
  | some tile =>
    refine ⟨?_, ?_, ?_, ?_, by decide, rfl⟩
    · simp [contextMenuEvent, htile, shownMenu, hasAction]
    · intro _
      constructor
      · simp [contextMenuEvent, htile, shownMenu]
      · simp [contextMenuEvent, htile, shownMenu, actionsNamed]
    · simp
    · simp [contextMenuEvent, htile, shownMenu, actionsNamed, drawGrid]

theorem contextMenuEvent_menu_witness :
    (contextMenuEvent sampleEnv sampleState menuEvent).calls =
      [ Call.setCurrentIndex (sampleEnv.indexAt menuEvent.pos)
          (QItemSelectionModel.SelectCurrent ||| QItemSelectionModel.Clear)
      , Call.menuExec (shownMenu (contextMenuEvent sampleEnv sampleState menuEvent).calls)
          menuEvent.globalPos ] ∧
    (contextMenuEvent sampleEnv sampleState { menuEvent with pos := ⟨40, 20⟩ }).calls =
      [ Call.menuExec
          (shownMenu
            (contextMenuEvent sampleEnv sampleState { menuEvent with pos := ⟨40, 20⟩ }).calls)
          menuEvent.globalPos ] :=
  ⟨((contextMenuEvent_menu sampleEnv sampleState menuEvent).2.1 (by decide)).1,
   (contextMenuEvent_menu sampleEnv sampleState { menuEvent with pos := ⟨40, 20⟩ }).2.2.1
      (by decide)⟩

/-- The painter calls of a corner marker never draw a pixmap. -/
theorem drawPixmap_not_mem_marker (r rect : QRect) (extra : Int) (pos : QPoint)
    (brush pen : Colour) :
    PainterCall.drawPixmap r ∉ TileDelegate.marker rect extra pos brush pen := by
  simp [TileDelegate.marker]

/-- Among the first painter calls of `paint` (render hint, pixmap, selection
overlay) the pixmap is drawn once, into the target rectangle. -/
theorem drawPixmap_mem_image (r target : QRect) (smooth selected : Bool) (opacity : ℚ) :
    PainterCall.drawPixmap r ∈
      (if smooth = true then [PainterCall.setRenderHint RenderHint.SmoothPixmapTransform]
        else [])
      ++ [PainterCall.drawPixmap target]
      ++ (if selected = true then
            [ PainterCall.setOpacity (1 / 2)
            , PainterCall.fillRect target Colour.highlight
            , PainterCall.setOpacity opacity ]
          else [])
    ↔ r = target := by
  cases smooth <;> cases selected <;> simp

/-- C6: `paint` draws the tile image into exactly one rectangle, the target
rectangle; it has the width and the height of the image, its left edge is the
cell's left edge and its bottom edge is the cell's bottom edge minus `extra`
(1 when the grid is drawn, 0 otherwise); its right edge is the cell's right
edge minus `extra` whenever the image is as wide as the cell minus `extra`. -/
theorem paint_targetRect_bottom_left_aligned (env : Env) (s : State) (option : PaintInput)
    (index : QModelIndex) :
    (∀ r : QRect, PainterCall.drawPixmap r ∈ (TileDelegate.paint env s option index).calls ↔
      r = TileDelegate.targetRect option.rect option.imageWidth option.imageHeight
            s.view.drawGrid) ∧
    (TileDelegate.targetRect option.rect option.imageWidth option.imageHeight
        s.view.drawGrid).width = option.imageWidth ∧
    (TileDelegate.targetRect option.rect option.imageWidth option.imageHeight
        s.view.drawGrid).height = option.imageHeight ∧
    (TileDelegate.targetRect option.rect option.imageWidth option.imageHeight
        s.view.drawGrid).left = option.rect.left ∧
    (TileDelegate.targetRect option.rect option.imageWidth option.imageHeight
        s.view.drawGrid).bottom = option.rect.bottom - (if s.view.drawGrid then 1 else 0) ∧
    (option.imageWidth = option.rect.width - (if s.view.drawGrid then 1 else 0) →
      (TileDelegate.targetRect option.rect option.imageWidth option.imageHeight
        s.view.drawGrid).right = option.rect.right - (if s.view.drawGrid then 1 else 0)) := by
  refine ⟨?_, ?_, ?_, ?_, ?_, ?_⟩
  · intro r
    unfold TileDelegate.paint
    dsimp only
    by_cases hedit : s.view.isEditTerrain = true
    · rw [if_pos hedit]
      cases env.tileAt index with
      | none => exact drawPixmap_mem_image r _ _ _ _
      | some tile =>
        have hcorners : PainterCall.drawPixmap r ∉
            (List.finRange 4).flatMap fun corner =>
              if (s.tiles tile).cornerTerrainId corner = s.view.terrainId then
                TileDelegate.marker option.rect (if s.view.drawGrid = true then 1 else 0)
                  (TileDelegate.cornerPos option.rect corner.val) Colour.gray Colour.darkGray
              else [] := by
          intro hmem
          obtain ⟨corner, -, hin⟩ := List.mem_flatMap.mp hmem
          split at hin
          · exact drawPixmap_not_mem_marker r _ _ _ _ _ hin
          · simp at hin
        have hhover : PainterCall.drawPixmap r ∉
            (if index = s.view.hoveredIndex then
              TileDelegate.marker option.rect (if s.view.drawGrid = true then 1 else 0)
                (TileDelegate.cornerPos option.rect s.view.hoveredCorner) Colour.highlight
                Colour.highlightDarker
            else []) := by
          split
          · exact drawPixmap_not_mem_marker r _ _ _ _ _
          · simp
        dsimp only
        rw [List.mem_append, List.mem_append]
        rw [drawPixmap_mem_image r _ _ _ _]
        constructor
        · rintro ((h | h) | h)
          · exact h
          · exact absurd h hcorners
          · exact absurd h hhover
        · intro h
          exact Or.inl (Or.inl h)
    · rw [if_neg hedit]
      exact drawPixmap_mem_image r _ _ _ _
  · simp only [TileDelegate.targetRect, QRect.width, QRect.adjusted, QRect.setTop,
      QRect.setRight, QRect.right]
    ring
  · simp only [TileDelegate.targetRect, QRect.height, QRect.adjusted, QRect.setTop,
      QRect.setRight, QRect.top]
    ring
  · simp [TileDelegate.targetRect, QRect.left, QRect.adjusted, QRect.setTop, QRect.setRight]
  · simp only [TileDelegate.targetRect, QRect.bottom, QRect.adjusted, QRect.setTop,
      QRect.setRight]
    ring
  · intro hw
    simp only [TileDelegate.targetRect, QRect.width, QRect.adjusted, QRect.setTop,
      QRect.setRight, QRect.right] at hw ⊢
    rw [hw]
    ring

theorem paint_targetRect_bottom_left_aligned_witness :
    (TileDelegate.targetRect samplePaintInput.rect samplePaintInput.imageWidth
        samplePaintInput.imageHeight sampleState.view.drawGrid).right
      = samplePaintInput.rect.right - (if sampleState.view.drawGrid then 1 else 0) :=
  (paint_targetRect_bottom_left_aligned sampleEnv sampleState samplePaintInput
      (some ⟨0, 0⟩)).2.2.2.2.2 (by decide)

/-- Rounding to nearest never goes below the floor. -/
theorem floor_le_roundHalfEven (t : ℚ) : ⌊t⌋ ≤ roundHalfEven t := by
  unfold roundHalfEven
  split
  · exact le_refl _
  · split
    · omega
    · split <;> omega

/-- Rounding to nearest never goes above the floor plus one. -/
theorem roundHalfEven_le_floor_add_one (t : ℚ) : roundHalfEven t ≤ ⌊t⌋ + 1 := by
  unfold roundHalfEven
  split
  · omega
  · split
    · omega
    · split <;> omega

/-- An integer below `t` is below the rounding of `t`. -/
theorem le_roundHalfEven (t : ℚ) (m : Int) (h : (m : ℚ) ≤ t) : m ≤ roundHalfEven t :=
  le_trans (Int.le_floor.mpr h) (floor_le_roundHalfEven t)

/-- An integer above `t` is above the rounding of `t`. -/
theorem roundHalfEven_le (t : ℚ) (m : Int) (h : t ≤ (m : ℚ)) : roundHalfEven t ≤ m := by
  rcases eq_or_lt_of_le h with heq | hlt
  · subst heq
    simp [roundHalfEven]
  · have hfloor : ⌊t⌋ < m := Int.floor_lt.mpr hlt
    have := roundHalfEven_le_floor_add_one t
    omega

/-- Integers round to themselves. -/
theorem roundHalfEven_intCast (m : Int) : roundHalfEven (m : ℚ) = m :=
  le_antisymm (roundHalfEven_le _ m (le_refl _)) (le_roundHalfEven _ m (le_refl _))

/-- The spacing is positive. -/
theorem ulp_pos (q : ℚ) : 0 < ulp q := by
  unfold ulp
  positivity

/-- Two points of the grid around `q` that enclose `q` enclose its rounding,
which is finite. -/
theorem roundDouble_between (q : ℚ) (ca cb : Int) (hca : 0 ≤ ca) (ha : (ca : ℚ) * ulp q ≤ q)
    (hb : q ≤ (cb : ℚ) * ulp q) (hfin : (cb : ℚ) * ulp q < 2 ^ 1024) :
    ∃ y : ℚ, roundDouble q = some y ∧ (ca : ℚ) * ulp q ≤ y ∧ y ≤ (cb : ℚ) * ulp q ∧
      y = (roundHalfEven (q / ulp q) : ℚ) * ulp q := by
  have hu := ulp_pos q
  have h1 : ca ≤ roundHalfEven (q / ulp q) :=
    le_roundHalfEven _ _ ((le_div_iff₀ hu).mpr ha)
  have h2 : roundHalfEven (q / ulp q) ≤ cb :=
    roundHalfEven_le _ _ ((div_le_iff₀ hu).mpr hb)
  have h1q : (ca : ℚ) ≤ (roundHalfEven (q / ulp q) : ℚ) := by exact_mod_cast h1
  have h2q : (roundHalfEven (q / ulp q) : ℚ) ≤ (cb : ℚ) := by exact_mod_cast h2
  have hlo : (ca : ℚ) * ulp q ≤ (roundHalfEven (q / ulp q) : ℚ) * ulp q :=
    mul_le_mul_of_nonneg_right h1q hu.le
  have hhi : (roundHalfEven (q / ulp q) : ℚ) * ulp q ≤ (cb : ℚ) * ulp q :=
    mul_le_mul_of_nonneg_right h2q hu.le
  have hnonneg : (0 : ℚ) ≤ (roundHalfEven (q / ulp q) : ℚ) * ulp q := by
    have : (0 : ℚ) ≤ (ca : ℚ) := by exact_mod_cast hca
    exact le_trans (mul_nonneg this hu.le) hlo
  refine ⟨_, ?_, hlo, hhi, rfl⟩
  unfold roundDouble
  dsimp only
  rw [if_pos]
  rw [abs_of_nonneg hnonneg]
  exact lt_of_le_of_lt hhi hfin

/-- The logarithm of a number between two consecutive powers of two. -/
theorem log_eq_of (q : ℚ) (e : Int) (hq : 0 < q) (hlo : (2 : ℚ) ^ e ≤ q)
    (hhi : q < (2 : ℚ) ^ (e + 1)) : Int.log 2 q = e := by
  have h1 : e ≤ Int.log 2 q := by
    have := (Int.zpow_le_iff_le_log (R := ℚ) (b := 2) (by norm_num) hq (x := e)).mp
      (by exact_mod_cast hlo)
    exact this
  have h2 : Int.log 2 q < e + 1 := by
    have := (Int.lt_zpow_iff_log_lt (R := ℚ) (b := 2) (by norm_num) hq (x := e + 1)).mp
      (by exact_mod_cast hhi)
    exact this
  omega

/-- The binade of a normal number between two consecutive powers of two. -/
theorem binade_eq_of (q : ℚ) (e : Int) (hq : 0 < q) (hlo : (2 : ℚ) ^ e ≤ q)
    (hhi : q < (2 : ℚ) ^ (e + 1)) (he : -1022 ≤ e) : binade q = e := by
  unfold binade
  rw [abs_of_pos hq, log_eq_of q e hq hlo hhi]
  exact max_eq_left he

/-- Numbers below `2 ^ (e + 1)` lie in binade `e` or lower. -/
theorem binade_le_of_lt (q : ℚ) (e : Int) (hq : 0 ≤ q) (hhi : q < (2 : ℚ) ^ (e + 1))
    (he : 0 ≤ e) : binade q ≤ e := by
  unfold binade
  rw [abs_of_nonneg hq]
  apply max_le _ (by omega)
  rcases eq_or_lt_of_le hq with h0 | hpos
  · rw [← h0, Int.log_zero_right]
    omega
  · have := (Int.lt_zpow_iff_log_lt (R := ℚ) (b := 2) (by norm_num) hpos (x := e + 1)).mp
      (by exact_mod_cast hhi)
    omega

/-- Positive numbers up to the least normal double lie in binade -1022. -/
theorem binade_of_le_min (q : ℚ) (hq : 0 < q) (h : q ≤ (2 : ℚ) ^ (-1022 : Int)) :
    binade q = -1022 := by
  unfold binade
  rw [abs_of_pos hq]
  apply max_eq_right
  have hmono := Int.log_mono_right (R := ℚ) (b := 2) hq h
  have hz := Int.log_zpow (R := ℚ) (b := 2) (by norm_num) (-1022)
  have hcast : ((2 : ℕ) : ℚ) ^ (-1022 : Int) = (2 : ℚ) ^ (-1022 : Int) := by norm_num
  rw [hcast] at hz
  rw [hz] at hmono
  exact hmono

/-- A multiple of a power of two at or above the last place of `q` is a
multiple of the spacing around `q`. -/
theorem mul_two_zpow_eq_mul_ulp (q : ℚ) (c : Int) (j : Int) (hj : binade q - 52 ≤ j) :
    (c : ℚ) * (2 : ℚ) ^ j = ((c * 2 ^ (j - (binade q - 52)).toNat : Int) : ℚ) * ulp q := by
  unfold ulp
  have hk : ((j - (binade q - 52)).toNat : Int) = j - (binade q - 52) :=
    Int.toNat_of_nonneg (by omega)
  have hsplit : (2 : ℚ) ^ j
      = (2 : ℚ) ^ ((j - (binade q - 52)).toNat : Int) * (2 : ℚ) ^ (binade q - 52) := by
    rw [← zpow_add₀ (by norm_num : (2 : ℚ) ≠ 0), hk]
    congr 1
    omega
  rw [hsplit, zpow_natCast]
  push_cast
  ring

/-- What a finite rounding result is. -/
theorem roundDouble_eq_some (q y : ℚ) (h : roundDouble q = some y) :
    y = (roundHalfEven (q / ulp q) : ℚ) * ulp q ∧ |y| < 2 ^ 1024 := by
  unfold roundDouble at h
  dsimp only at h
  split at h
  · rename_i hfin
    have hy := Option.some.inj h
    rw [← hy]
    exact ⟨rfl, hfin⟩
  · exact absurd h (by simp)

/-- Two points of the grid around `q` that enclose `q` enclose its rounding. -/
theorem roundValue_between (q : ℚ) (ca cb : Int) (ha : (ca : ℚ) * ulp q ≤ q)
    (hb : q ≤ (cb : ℚ) * ulp q) :
    (ca : ℚ) * ulp q ≤ (roundHalfEven (q / ulp q) : ℚ) * ulp q ∧
      (roundHalfEven (q / ulp q) : ℚ) * ulp q ≤ (cb : ℚ) * ulp q := by
  have hu := ulp_pos q
  have h1 : ca ≤ roundHalfEven (q / ulp q) :=
    le_roundHalfEven _ _ ((le_div_iff₀ hu).mpr ha)
  have h2 : roundHalfEven (q / ulp q) ≤ cb :=
    roundHalfEven_le _ _ ((div_le_iff₀ hu).mpr hb)
  have h1q : (ca : ℚ) ≤ (roundHalfEven (q / ulp q) : ℚ) := by exact_mod_cast h1
  have h2q : (roundHalfEven (q / ulp q) : ℚ) ≤ (cb : ℚ) := by exact_mod_cast h2
  exact ⟨mul_le_mul_of_nonneg_right h1q hu.le, mul_le_mul_of_nonneg_right h2q hu.le⟩

/-- A finite value on its own grid is a double: rounding keeps it. -/
theorem roundDouble_of_multiple (y : ℚ) (c : Int) (hy : y = (c : ℚ) * ulp y)
    (hfin : |y| < 2 ^ 1024) : roundDouble y = some y := by
  have hu := ulp_pos y
  have hdiv : y / ulp y = (c : ℚ) := by
    rw [div_eq_iff (ne_of_gt hu)]
    exact hy
  unfold roundDouble
  dsimp only
  rw [hdiv, roundHalfEven_intCast, ← hy, if_pos hfin]

/-- Zero is a double. -/
theorem roundDouble_zero : roundDouble 0 = some 0 :=
  roundDouble_of_multiple 0 0 (by simp) (by norm_num)

/-- The result of a rounding is a double: rounding it again keeps it (so adding
`0.0` to it is exact). -/
theorem roundDouble_idem (q y : ℚ) (hq : 0 ≤ q) (h : roundDouble q = some y) :
    roundDouble y = some y := by
  obtain ⟨hy, hfin⟩ := roundDouble_eq_some q y h
  rcases eq_or_lt_of_le hq with h0 | hpos
  · have hy0 : y = 0 := by
      rw [hy, ← h0]
      simp [roundHalfEven]
    rw [hy0]
    exact roundDouble_zero
  · have hlo : (2 : ℚ) ^ Int.log 2 q ≤ q := by
      have := Int.zpow_log_le_self (R := ℚ) (b := 2) (by norm_num) hpos
      exact_mod_cast this
    have hhi : q < (2 : ℚ) ^ (Int.log 2 q + 1) := by
      have := Int.lt_zpow_succ_log_self (R := ℚ) (b := 2) (by norm_num) q
      exact_mod_cast this
    by_cases hnormal : -1022 ≤ Int.log 2 q
    · have hbin : binade q = Int.log 2 q := binade_eq_of q _ hpos hlo hhi hnormal
      have ha := mul_two_zpow_eq_mul_ulp q 1 (Int.log 2 q) (by omega)
      have hb := mul_two_zpow_eq_mul_ulp q 1 (Int.log 2 q + 1) (by omega)
      rw [Int.cast_one, one_mul] at ha hb
      obtain ⟨h1, h2⟩ := roundValue_between q _ _ (ha ▸ hlo) (hb ▸ hhi.le)
      rw [← ha, ← hy] at h1
      rw [← hb, ← hy] at h2
      have hypos : 0 < y := lt_of_lt_of_le (by positivity) h1
      rcases eq_or_lt_of_le h2 with heq | hlt
      · have hhib : y < (2 : ℚ) ^ (Int.log 2 q + 1 + 1) := by
          rw [heq]
          exact zpow_lt_zpow_right₀ (by norm_num) (by omega)
        have hbinb : binade y = Int.log 2 q + 1 :=
          binade_eq_of y _ hypos heq.ge hhib (by omega)
        have hm := mul_two_zpow_eq_mul_ulp y 1 (Int.log 2 q + 1) (by omega)
        rw [Int.cast_one, one_mul, ← heq] at hm
        exact roundDouble_of_multiple y _ hm hfin
      · have hbinb : binade y = Int.log 2 q := binade_eq_of y _ hypos h1 hlt hnormal
        have hulp : ulp y = ulp q := by
          unfold ulp
          rw [hbinb, hbin]
        refine roundDouble_of_multiple y (roundHalfEven (q / ulp q)) ?_ hfin
        rw [hulp]
        exact hy
    · have hbin : binade q = -1022 := by
        unfold binade
        rw [abs_of_pos hpos]
        exact max_eq_right (by omega)
      have hqle : q ≤ (2 : ℚ) ^ (-1022 : Int) :=
        le_trans hhi.le (zpow_le_zpow_right₀ (by norm_num) (by omega))
      have hb := mul_two_zpow_eq_mul_ulp q 1 (-1022) (by omega)
      rw [Int.cast_one, one_mul] at hb
      have ha : ((0 : Int) : ℚ) * ulp q ≤ q := by simpa using hq
      obtain ⟨h1, h2⟩ := roundValue_between q 0 _ ha (hb ▸ hqle)
      rw [← hy] at h1 h2
      rw [← hb] at h2
      have hy0 : 0 ≤ y := by simpa using h1
      rcases eq_or_lt_of_le hy0 with hzero | hypos
      · rw [← hzero]
        exact roundDouble_zero
      · have hbinb : binade y = -1022 := binade_of_le_min y hypos h2
        have hulp : ulp y = ulp q := by
          unfold ulp
          rw [hbinb, hbin]
        refine roundDouble_of_multiple y (roundHalfEven (q / ulp q)) ?_ hfin
        rw [hulp]
        exact hy

/-- Integers below `2 ^ 53` are doubles, so two of them that enclose `q` enclose
its rounding. -/
theorem roundDouble_int_between (q : ℚ) (a b : Int) (ha0 : 0 ≤ a) (ha : (a : ℚ) ≤ q)
    (hb : q ≤ (b : ℚ)) (hb53 : (b : ℚ) < 2 ^ 53) :
    ∃ y : ℚ, roundDouble q = some y ∧ (a : ℚ) ≤ y ∧ y ≤ (b : ℚ) := by
  have hq0 : 0 ≤ q := le_trans (by exact_mod_cast ha0) ha
  have hq53 : q < (2 : ℚ) ^ ((52 : Int) + 1) := by
    have : (2 : ℚ) ^ ((52 : Int) + 1) = 2 ^ 53 := by norm_num
    rw [this]
    exact lt_of_le_of_lt hb hb53
  have hbin : binade q ≤ 52 := binade_le_of_lt q 52 hq0 hq53 (by norm_num)
  have hma := mul_two_zpow_eq_mul_ulp q a 0 (by omega)
  have hmb := mul_two_zpow_eq_mul_ulp q b 0 (by omega)
  rw [zpow_zero, mul_one] at hma hmb
  have hca : (0 : Int) ≤ a * 2 ^ (0 - (binade q - 52)).toNat := by positivity
  have hfin : ((b * 2 ^ (0 - (binade q - 52)).toNat : Int) : ℚ) * ulp q < 2 ^ 1024 := by
    rw [← hmb]
    exact lt_trans hb53 (by norm_num)
  obtain ⟨y, hy, h1, h2, -⟩ := roundDouble_between q _ _ hca (hma ▸ ha) (hmb ▸ hb) hfin
  rw [← hma] at h1
  rw [← hmb] at h2
  exact ⟨y, hy, h1, h2⟩

/-- Conversion to `int` of a non-negative value within range is its floor. -/
theorem qrealToInt_of_range (q : ℚ) (h0 : 0 ≤ q) (h1 : q ≤ 2147483647) :
    qrealToInt q = some ⌊q⌋ := by
  have hf0 : 0 ≤ ⌊q⌋ := Int.floor_nonneg.mpr h0
  have hf1 : ⌊q⌋ ≤ 2147483647 := by
    have : (⌊q⌋ : ℚ) ≤ (2147483647 : Int) := le_trans (Int.floor_le q) (by exact_mod_cast h1)
    exact_mod_cast this
  unfold qrealToInt
  simp only [h0, if_true]
  rw [if_pos ⟨by omega, hf1⟩]

/-- One dimension of the size hint without (`extra = 0`) and with (`extra = 1`)
the grid: both are defined; each is the truncation of the exact `w * z + extra`
or one more; the second exceeds the first by one or two. -/
theorem TileDelegate.scaledLength_grid (w : Int) (z : ℚ) (hw : 0 ≤ w) (hz : 0 ≤ z)
    (hwz : (w : ℚ) * z ≤ 2147483646) :
    ∃ x x1 : ℚ, roundDouble ((w : ℚ) * z) = some x ∧ roundDouble (x + 1) = some x1 ∧
      TileDelegate.scaledLength w z 0 = some ⌊x⌋ ∧ TileDelegate.scaledLength w z 1 = some ⌊x1⌋ ∧
      (⌊x⌋ = ⌊(w : ℚ) * z⌋ ∨ ⌊x⌋ = ⌊(w : ℚ) * z⌋ + 1) ∧
      (⌊x1⌋ = ⌊(w : ℚ) * z + 1⌋ ∨ ⌊x1⌋ = ⌊(w : ℚ) * z + 1⌋ + 1) ∧
      (⌊x1⌋ = ⌊x⌋ + 1 ∨ ⌊x1⌋ = ⌊x⌋ + 2) := by
  have hwq : (0 : ℚ) ≤ (w : ℚ) := by exact_mod_cast hw
  have hp0 : (0 : ℚ) ≤ (w : ℚ) * z := mul_nonneg hwq hz
  have hfl0 : 0 ≤ ⌊(w : ℚ) * z⌋ := Int.floor_nonneg.mpr hp0
  have hfl1 : ⌊(w : ℚ) * z⌋ ≤ 2147483646 := by
    have : (⌊(w : ℚ) * z⌋ : ℚ) ≤ (2147483646 : Int) :=
      le_trans (Int.floor_le _) (by exact_mod_cast hwz)
    exact_mod_cast this
  obtain ⟨x, hx, hxlo, hxhi⟩ := roundDouble_int_between ((w : ℚ) * z) ⌊(w : ℚ) * z⌋
    (⌊(w : ℚ) * z⌋ + 1) hfl0 (Int.floor_le _)
    (by push_cast; exact (Int.lt_floor_add_one _).le)
    (by
      have : ((⌊(w : ℚ) * z⌋ + 1 : Int) : ℚ) ≤ (2147483647 : Int) := by exact_mod_cast (by omega)
      exact lt_of_le_of_lt this (by norm_num))
  obtain ⟨xb, hxb, -, hxmax⟩ := roundDouble_int_between ((w : ℚ) * z) 0 2147483646
    (le_refl _) (by exact_mod_cast hp0) (by exact_mod_cast hwz) (by norm_num)
  have hsame : xb = x := Option.some.inj (hxb.symm.trans hx)
  rw [hsame] at hxmax
  have hxmaxq : x ≤ 2147483646 := by exact_mod_cast hxmax
  have hx0 : 0 ≤ x := le_trans (by exact_mod_cast hfl0) hxlo
  have hfx0 : 0 ≤ ⌊x⌋ := Int.floor_nonneg.mpr hx0
  have hfx1 : ⌊x⌋ ≤ 2147483646 := by
    have : (⌊x⌋ : ℚ) ≤ (2147483646 : Int) := le_trans (Int.floor_le _) (by exact_mod_cast hxmaxq)
    exact_mod_cast this
  have hfxlo : ⌊(w : ℚ) * z⌋ ≤ ⌊x⌋ := Int.le_floor.mpr hxlo
  have hfxhi : ⌊x⌋ ≤ ⌊(w : ℚ) * z⌋ + 1 := by
    have : (⌊x⌋ : ℚ) ≤ ((⌊(w : ℚ) * z⌋ + 1 : Int) : ℚ) := le_trans (Int.floor_le _) hxhi
    exact_mod_cast this
  have hidem : roundDouble (x + ((0 : Int) : ℚ)) = some x := by
    rw [Int.cast_zero, add_zero]
    exact roundDouble_idem _ x hp0 hx
  have hoff : TileDelegate.scaledLength w z 0 = some ⌊x⌋ := by
    unfold TileDelegate.scaledLength
    rw [hx]
    show (roundDouble (x + ((0 : Int) : ℚ))).bind qrealToInt = some ⌊x⌋
    rw [hidem]
    show qrealToInt x = some ⌊x⌋
    exact qrealToInt_of_range x hx0 (le_trans hxmaxq (by norm_num))
  obtain ⟨x1, hx1, hx1lo, hx1hi⟩ := roundDouble_int_between (x + 1) (⌊x⌋ + 1) (⌊x⌋ + 2)
    (by omega)
    (by push_cast; linarith [Int.floor_le x])
    (by push_cast; linarith [Int.lt_floor_add_one x])
    (by
      have : ((⌊x⌋ + 2 : Int) : ℚ) ≤ (2147483648 : Int) := by exact_mod_cast (by omega)
      exact lt_of_le_of_lt this (by norm_num))
  obtain ⟨x2, hx2, -, hx1max⟩ := roundDouble_int_between (x + 1) 0 2147483647
    (le_refl _) (by push_cast; linarith) (by push_cast; linarith) (by norm_num)
  have hsame1 : x2 = x1 := Option.some.inj (hx2.symm.trans hx1)
  rw [hsame1] at hx1max
  have hx1maxq : x1 ≤ 2147483647 := by exact_mod_cast hx1max
  have hx10 : 0 ≤ x1 := le_trans (by exact_mod_cast (by omega : (0 : Int) ≤ ⌊x⌋ + 1)) hx1lo
  have hon : TileDelegate.scaledLength w z 1 = some ⌊x1⌋ := by
    unfold TileDelegate.scaledLength
    rw [hx]
    show (roundDouble (x + ((1 : Int) : ℚ))).bind qrealToInt = some ⌊x1⌋
    rw [Int.cast_one, hx1]
    show qrealToInt x1 = some ⌊x1⌋
    exact qrealToInt_of_range x1 hx10 hx1maxq
  have hf1lo : ⌊x⌋ + 1 ≤ ⌊x1⌋ := Int.le_floor.mpr hx1lo
  have hf1hi : ⌊x1⌋ ≤ ⌊x⌋ + 2 := by
    have : (⌊x1⌋ : ℚ) ≤ ((⌊x⌋ + 2 : Int) : ℚ) := le_trans (Int.floor_le _) hx1hi
    exact_mod_cast this
  have hexact : ⌊(w : ℚ) * z + 1⌋ = ⌊(w : ℚ) * z⌋ + 1 := Int.floor_add_one _
  have hx1top : x1 ≤ ((⌊(w : ℚ) * z⌋ + 2 : Int) : ℚ) := by
    obtain ⟨x3, hx3, -, htop⟩ := roundDouble_int_between (x + 1) 0 (⌊(w : ℚ) * z⌋ + 2)
      (le_refl _) (by push_cast; linarith)
      (by push_cast; push_cast at hxhi; linarith)
      (by
        have : ((⌊(w : ℚ) * z⌋ + 2 : Int) : ℚ) ≤ (2147483648 : Int) := by
          exact_mod_cast (by omega)
        exact lt_of_le_of_lt this (by norm_num))
    have hsame2 : x3 = x1 := Option.some.inj (hx3.symm.trans hx1)
    rw [hsame2] at htop
    exact htop
  have hf1top : ⌊x1⌋ ≤ ⌊(w : ℚ) * z⌋ + 2 := by
    have : (⌊x1⌋ : ℚ) ≤ ((⌊(w : ℚ) * z⌋ + 2 : Int) : ℚ) := le_trans (Int.floor_le _) hx1top
    exact_mod_cast this
  refine ⟨x, x1, hx, hx1, hoff, hon, ?_, ?_, ?_⟩
  · omega
  · rw [hexact]
    omega
  · omega

/-- Rounding computed from a known binade. -/
theorem roundDouble_of_binade (q : ℚ) (e m : Int) (hq : 0 < q) (hlo : (2 : ℚ) ^ e ≤ q)
    (hhi : q < (2 : ℚ) ^ (e + 1)) (he : -1022 ≤ e)
    (hm : roundHalfEven (q / (2 : ℚ) ^ (e - 52)) = m)
    (hm0 : 0 ≤ m) (hfin : (m : ℚ) * (2 : ℚ) ^ (e - 52) < 2 ^ 1024) :
    roundDouble q = some ((m : ℚ) * (2 : ℚ) ^ (e - 52)) := by
  have hbin := binade_eq_of q e hq hlo hhi he
  have hnonneg : (0 : ℚ) ≤ (m : ℚ) * (2 : ℚ) ^ (e - 52) :=
    mul_nonneg (by exact_mod_cast hm0) (by positivity)
  have hfin : |(m : ℚ) * (2 : ℚ) ^ (e - 52)| < 2 ^ 1024 := by
    rw [abs_of_nonneg hnonneg]
    exact hfin
  unfold roundDouble ulp
  rw [hbin]
  dsimp only
  rw [hm, if_pos hfin]

/-- Rounding to nearest computed from a known floor. -/
theorem roundHalfEven_of_floor (t : ℚ) (f : Int) (hlo : (f : ℚ) ≤ t) (hhi : t < (f : ℚ) + 1) :
    roundHalfEven t =
      if t - f < 1 / 2 then f else if 1 / 2 < t - f then f + 1
      else if f % 2 = 0 then f else f + 1 := by
  have hf : ⌊t⌋ = f := Int.floor_eq_iff.mpr ⟨hlo, hhi⟩
  unfold roundHalfEven
  rw [hf]

/-- The zoom factor `zoom49` is a double. -/
theorem zoom49_isDouble : roundDouble zoom49 = some zoom49 := by
  have h := roundDouble_of_binade zoom49 (-6) 5882252574524729 (by norm_num [zoom49])
    (by norm_num [zoom49]) (by norm_num [zoom49]) (by norm_num)
    (by
      rw [roundHalfEven_of_floor _ 5882252574524729 (by norm_num [zoom49])
        (by norm_num [zoom49])]
      norm_num [zoom49])
    (by norm_num) (by norm_num)
  rw [h]
  norm_num [zoom49]

/-- In double arithmetic `49 * zoom49` is the double just below 1. -/
theorem scaled49 : roundDouble ((49 : Int) * zoom49)
    = some (9007199254740991 / 9007199254740992) := by
  have h := roundDouble_of_binade ((49 : Int) * zoom49) (-1) 9007199254740991
    (by norm_num [zoom49]) (by norm_num [zoom49]) (by norm_num [zoom49]) (by norm_num)
    (by
      rw [roundHalfEven_of_floor _ 9007199254740991 (by norm_num [zoom49])
        (by norm_num [zoom49])]
      norm_num [zoom49])
    (by norm_num) (by norm_num)
  rw [h]
  norm_num

/-- Adding 1 to the double just below 1 rounds to 2 (a tie, resolved to even). -/
theorem scaled49_plus_one :
    roundDouble (9007199254740991 / 9007199254740992 + ((1 : Int) : ℚ)) = some 2 := by
  have h := roundDouble_of_binade (9007199254740991 / 9007199254740992 + ((1 : Int) : ℚ)) 0
    9007199254740992
    (by norm_num) (by norm_num) (by norm_num) (by norm_num)
    (by
      rw [roundHalfEven_of_floor _ 9007199254740991 (by norm_num) (by norm_num)]
      norm_num)
    (by norm_num) (by norm_num)
  rw [h]
  norm_num

/-- With the grid, a length of 49 at `zoom49` becomes 2. -/
theorem scaledLength49_grid : TileDelegate.scaledLength 49 zoom49 1 = some 2 := by
  unfold TileDelegate.scaledLength
  rw [scaled49]
  show (roundDouble (9007199254740991 / 9007199254740992 + ((1 : Int) : ℚ))).bind qrealToInt
    = some 2
  rw [scaled49_plus_one]
  show qrealToInt 2 = some 2
  rw [qrealToInt_of_range 2 (by norm_num) (by norm_num)]
  norm_num

/-- Without the grid, a length of 49 at `zoom49` becomes 0. -/
theorem scaledLength49_plain : TileDelegate.scaledLength 49 zoom49 0 = some 0 := by
  unfold TileDelegate.scaledLength
  rw [scaled49]
  show (roundDouble (9007199254740991 / 9007199254740992 + ((0 : Int) : ℚ))).bind qrealToInt
    = some 0
  rw [Int.cast_zero, add_zero, roundDouble_idem _ _ (by norm_num [zoom49]) scaled49]
  show qrealToInt (9007199254740991 / 9007199254740992) = some 0
  rw [qrealToInt_of_range _ (by norm_num) (by norm_num)]
  congr 1
  exact Int.floor_eq_iff.mpr ⟨by norm_num, by norm_num⟩

/-- A length at zoom 1: the tile length plus `extra`. -/
theorem scaledLength_one (w extra : Int) (hw : 0 ≤ w) (he : 0 ≤ extra)
    (hmax : w + extra ≤ 2147483647) :
    TileDelegate.scaledLength w 1 extra = some (w + extra) := by
  have hround : ∀ n : Int, 0 ≤ n → n ≤ 2147483647 → roundDouble (n : ℚ) = some (n : ℚ) := by
    intro n hn0 hn1
    obtain ⟨y, hy, hlo, hhi⟩ := roundDouble_int_between (n : ℚ) n n hn0 (le_refl _) (le_refl _)
      (by
        have : (n : ℚ) ≤ (2147483647 : Int) := by exact_mod_cast hn1
        exact lt_of_le_of_lt this (by norm_num))
    rw [hy, le_antisymm hhi hlo]
  unfold TileDelegate.scaledLength
  rw [mul_one, hround w hw (by omega)]
  show (roundDouble ((w : ℚ) + (extra : ℚ))).bind qrealToInt = some (w + extra)
  rw [← Int.cast_add, hround (w + extra) (by omega) hmax]
  show qrealToInt ((w + extra : Int) : ℚ) = some (w + extra)
  rw [qrealToInt_of_range _ (by exact_mod_cast (by omega : (0 : Int) ≤ w + extra))
    (by exact_mod_cast hmax), Int.floor_intCast]

/-- C7, as the code has it: for tile width and height `w`, `h` in the range of
a non-negative `int` and zoom `z ≥ 0` with `w * z` and `h * z` at most
2^31 - 2, the size hint is defined and is (trunc(fl(fl(w*z) + e)),
trunc(fl(fl(h*z) + e))), `fl` rounding to the nearest double and `e` being 1
with the grid and 0 without; each dimension is trunc(w*z + e) of the exact
product or one more; drawing the grid makes each dimension one or two pixels
larger; at `z = 1` the size hint is exactly (w + e, h + e). -/
theorem sizeHint_zoom_grid (w h : Int) (z : ℚ) (hw : 0 ≤ w) (hh : 0 ≤ h) (hz : 0 ≤ z)
    (_hwmax : w ≤ 2147483647) (_hhmax : h ≤ 2147483647)
    (hwz : (w : ℚ) * z ≤ 2147483646) (hhz : (h : ℚ) * z ≤ 2147483646) :
    (∃ x y x1 y1 : ℚ,
      roundDouble ((w : ℚ) * z) = some x ∧ roundDouble ((h : ℚ) * z) = some y ∧
      roundDouble (x + 1) = some x1 ∧ roundDouble (y + 1) = some y1 ∧
      TileDelegate.sizeHint w h z false = some ⟨⌊x⌋, ⌊y⌋⟩ ∧
      TileDelegate.sizeHint w h z true = some ⟨⌊x1⌋, ⌊y1⌋⟩ ∧
      (⌊x⌋ = ⌊(w : ℚ) * z⌋ ∨ ⌊x⌋ = ⌊(w : ℚ) * z⌋ + 1) ∧
      (⌊y⌋ = ⌊(h : ℚ) * z⌋ ∨ ⌊y⌋ = ⌊(h : ℚ) * z⌋ + 1) ∧
      (⌊x1⌋ = ⌊(w : ℚ) * z + 1⌋ ∨ ⌊x1⌋ = ⌊(w : ℚ) * z + 1⌋ + 1) ∧
      (⌊y1⌋ = ⌊(h : ℚ) * z + 1⌋ ∨ ⌊y1⌋ = ⌊(h : ℚ) * z + 1⌋ + 1) ∧
      (⌊x1⌋ = ⌊x⌋ + 1 ∨ ⌊x1⌋ = ⌊x⌋ + 2) ∧
      (⌊y1⌋ = ⌊y⌋ + 1 ∨ ⌊y1⌋ = ⌊y⌋ + 2)) ∧
    (z = 1 → ∀ g : Bool, TileDelegate.sizeHint w h z g =
      some ⟨w + (if g then 1 else 0), h + (if g then 1 else 0)⟩) := by
  constructor
  · obtain ⟨x, x1, hx, hx1, hxoff, hxon, hxe, hx1e, hxd⟩ :=
      TileDelegate.scaledLength_grid w z hw hz hwz
    obtain ⟨y, y1, hy, hy1, hyoff, hyon, hye, hy1e, hyd⟩ :=
      TileDelegate.scaledLength_grid h z hh hz hhz
    refine ⟨x, y, x1, y1, hx, hy, hx1, hy1, ?_, ?_, hxe, hye, hx1e, hy1e, hxd, hyd⟩
    · unfold TileDelegate.sizeHint
      simp only [Bool.false_eq_true, if_false]
      rw [hxoff, hyoff]
      rfl
    · unfold TileDelegate.sizeHint
      simp only [if_true]
      rw [hxon, hyon]
      rfl
  · intro hz1 g
    have hw1 : w ≤ 2147483646 := by
      have : (w : ℚ) ≤ (2147483646 : Int) := by
        rw [hz1, mul_one] at hwz
        exact_mod_cast hwz
      exact_mod_cast this
    have hh1 : h ≤ 2147483646 := by
      have : (h : ℚ) ≤ (2147483646 : Int) := by
        rw [hz1, mul_one] at hhz
        exact_mod_cast hhz
      exact_mod_cast this
    rw [hz1]
    cases g
    · unfold TileDelegate.sizeHint
      simp only [Bool.false_eq_true, if_false]
      rw [scaledLength_one w 0 hw (le_refl _) (by omega),
        scaledLength_one h 0 hh (le_refl _) (by omega)]
      rfl
    · unfold TileDelegate.sizeHint
      simp only [if_true]
      rw [scaledLength_one w 1 hw (by norm_num) (by omega),
        scaledLength_one h 1 hh (by norm_num) (by omega)]
      rfl

theorem sizeHint_zoom_grid_witness :
    TileDelegate.sizeHint 32 32 1 true = some ⟨32 + 1, 32 + 1⟩ ∧
    ∃ x y x1 y1 : ℚ,
      roundDouble (((49 : Int) : ℚ) * zoom49) = some x ∧
      roundDouble (((49 : Int) : ℚ) * zoom49) = some y ∧
      roundDouble (x + 1) = some x1 ∧ roundDouble (y + 1) = some y1 ∧
      TileDelegate.sizeHint 49 49 zoom49 false = some ⟨⌊x⌋, ⌊y⌋⟩ ∧
      TileDelegate.sizeHint 49 49 zoom49 true = some ⟨⌊x1⌋, ⌊y1⌋⟩ ∧
      (⌊x⌋ = ⌊((49 : Int) : ℚ) * zoom49⌋ ∨ ⌊x⌋ = ⌊((49 : Int) : ℚ) * zoom49⌋ + 1) ∧
      (⌊y⌋ = ⌊((49 : Int) : ℚ) * zoom49⌋ ∨ ⌊y⌋ = ⌊((49 : Int) : ℚ) * zoom49⌋ + 1) ∧
      (⌊x1⌋ = ⌊((49 : Int) : ℚ) * zoom49 + 1⌋ ∨ ⌊x1⌋ = ⌊((49 : Int) : ℚ) * zoom49 + 1⌋ + 1) ∧
      (⌊y1⌋ = ⌊((49 : Int) : ℚ) * zoom49 + 1⌋ ∨ ⌊y1⌋ = ⌊((49 : Int) : ℚ) * zoom49 + 1⌋ + 1) ∧
      (⌊x1⌋ = ⌊x⌋ + 1 ∨ ⌊x1⌋ = ⌊x⌋ + 2) ∧
      (⌊y1⌋ = ⌊y⌋ + 1 ∨ ⌊y1⌋ = ⌊y⌋ + 2) :=
  ⟨(sizeHint_zoom_grid 32 32 1 (by decide) (by decide) (by norm_num) (by decide) (by decide)
      (by norm_num) (by norm_num)).2 rfl true,
   (sizeHint_zoom_grid 49 49 zoom49 (by decide) (by decide) (by norm_num [zoom49])
      (by decide) (by decide) (by norm_num [zoom49]) (by norm_num [zoom49])).1⟩

/-- C7 fails on the code: `zoom49` is a double (the one nearest to 1/49); for
49x49 tiles at this zoom the size hint is (0, 0) without the grid and (2, 2)
with it. So with the grid it is not (trunc(w*z + 1), trunc(h*z + 1)), which
is (1, 1), and the grid enlarges each dimension by two pixels, not by exactly
one. -/
theorem sizeHint_grid_adds_two_pixels :
    roundDouble zoom49 = some zoom49 ∧ 0 ≤ zoom49 ∧
    TileDelegate.sizeHint 49 49 zoom49 false = some ⟨0, 0⟩ ∧
    TileDelegate.sizeHint 49 49 zoom49 true = some ⟨2, 2⟩ ∧
    ⌊((49 : Int) : ℚ) * zoom49 + 1⌋ = 1 ∧
    ¬∃ a b : QSize, TileDelegate.sizeHint 49 49 zoom49 true = some a ∧
      TileDelegate.sizeHint 49 49 zoom49 false = some b ∧ a.width = b.width + 1 := by
  have hoff : TileDelegate.sizeHint 49 49 zoom49 false = some ⟨0, 0⟩ := by
    unfold TileDelegate.sizeHint
    simp only [Bool.false_eq_true, if_false]
    rw [scaledLength49_plain]
    rfl
  have hon : TileDelegate.sizeHint 49 49 zoom49 true = some ⟨2, 2⟩ := by
    unfold TileDelegate.sizeHint
    simp only [if_true]
    rw [scaledLength49_grid]
    rfl
  refine ⟨zoom49_isDouble, by norm_num [zoom49], hoff, hon, ?_, ?_⟩
  · exact Int.floor_eq_iff.mpr ⟨by norm_num [zoom49], by norm_num [zoom49]⟩
  · rintro ⟨a, b, ha, hb, hab⟩
    rw [hon] at ha
    rw [hoff] at hb
    have ha2 := Option.some.inj ha
    have hb2 := Option.some.inj hb
    rw [← ha2, ← hb2] at hab
    exact absurd hab (by decide)

/-- C8: `setDrawGrid(b)` makes `drawGrid()` equal `b`, calls
`tilesetChanged()` on the model exactly once whatever the previous value, and
keeps the edit-terrain flag, the terrain id, the hovered index, the hovered
corner and the tiles; a second `setDrawGrid(b)` leaves the state the first one
left. -/
theorem setDrawGrid_sets_flag_only (s : State) (b : Bool) :
    (setDrawGrid s b).state.view.drawGrid = b ∧
    (setDrawGrid s b).calls = [Call.tilesetChanged] ∧
    (setDrawGrid s b).calls.count Call.tilesetChanged = 1 ∧
    (setDrawGrid s b).state.view.isEditTerrain = s.view.isEditTerrain ∧
    (setDrawGrid s b).state.view.terrainId = s.view.terrainId ∧
    (setDrawGrid s b).state.view.hoveredIndex = s.view.hoveredIndex ∧
    (setDrawGrid s b).state.view.hoveredCorner = s.view.hoveredCorner ∧
    (setDrawGrid s b).state.tiles = s.tiles ∧
    (setDrawGrid s b).nullDeref = false ∧
    (setDrawGrid (setDrawGrid s b).state b).state = (setDrawGrid s b).state :=
  ⟨rfl, rfl, by simp [setDrawGrid], rfl, rfl, rfl, rfl, rfl, rfl, rfl⟩

/-- Two views with the same member variables are equal. -/
theorem view_ext (a b : TilesetView) (hgrid : a.mDrawGrid = b.mDrawGrid)
    (hedit : a.mEditTerrain = b.mEditTerrain) (hterrain : a.mTerrainId = b.mTerrainId)
    (hindex : a.mHoveredIndex = b.mHoveredIndex) (hcorner : a.mHoveredCorner = b.mHoveredCorner) :
    a = b := by
  cases a
  cases b
  simp_all

/-- The `update(index)` calls of a mouse move in terrain mode: none when the
hover stays as it is; otherwise the previous hovered index when valid, then the
new one when valid and different. -/
theorem mouseMoveEvent_repainted (env : Env) (s : State) (event : QMouseEvent)
    (hedit : s.view.mEditTerrain = true) :
    repaintedIndexes (mouseMoveEvent env s event).calls =
      if s.view.mHoveredIndex ≠ (mouseMoveEvent env s event).state.view.mHoveredIndex ∨
          s.view.mHoveredCorner ≠ (mouseMoveEvent env s event).state.view.mHoveredCorner then
        (if QModelIndex.isValid s.view.mHoveredIndex = true then [s.view.mHoveredIndex] else [])
        ++ (if s.view.mHoveredIndex ≠ (mouseMoveEvent env s event).state.view.mHoveredIndex ∧
              QModelIndex.isValid (mouseMoveEvent env s event).state.view.mHoveredIndex = true
            then [(mouseMoveEvent env s event).state.view.mHoveredIndex] else [])
      else [] := by
  rw [mouseMoveEvent_view env s event hedit]
  dsimp only
  unfold mouseMoveEvent
  have hmode : ¬((!s.view.mEditTerrain) = true) := by simp [hedit]
  rw [if_neg hmode]
  dsimp only
  generalize (if QModelIndex.isValid (env.indexAt event.pos) = true then
      (if event.pos.x > (env.visualRect (env.indexAt event.pos)).center.x then (1 : Int) else 0)
      + (if event.pos.y > (env.visualRect (env.indexAt event.pos)).center.y then 2 else 0)
    else 0) = corner
  have hdebug : repaintedIndexes
      (if QModelIndex.isValid (env.indexAt event.pos) = true then
        [Call.qDebug event.pos (env.visualRect (env.indexAt event.pos)).center] else []) = [] := by
    split <;> rfl
  have hprev : repaintedIndexes
      (if QModelIndex.isValid s.view.mHoveredIndex = true then
        [Call.update s.view.mHoveredIndex] else [])
      = if QModelIndex.isValid s.view.mHoveredIndex = true then [s.view.mHoveredIndex]
        else [] := by
    split <;> rfl
  have hnew : repaintedIndexes
      (if s.view.mHoveredIndex ≠ env.indexAt event.pos ∧
          QModelIndex.isValid (env.indexAt event.pos) = true then
        [Call.update (env.indexAt event.pos)] else [])
      = if s.view.mHoveredIndex ≠ env.indexAt event.pos ∧
          QModelIndex.isValid (env.indexAt event.pos) = true then
        [env.indexAt event.pos] else [] := by
    split <;> rfl
  have happend : ∀ a b : List Call,
      repaintedIndexes (a ++ b) = repaintedIndexes a ++ repaintedIndexes b := by
    intro a b
    simp [repaintedIndexes, List.filterMap_append]
  by_cases hchange : s.view.mHoveredIndex ≠ env.indexAt event.pos ∨ s.view.mHoveredCorner ≠ corner
  · rw [if_pos hchange, if_pos hchange]
    by_cases hleft : event.buttons &&& Qt.LeftButton ≠ 0
    · rw [if_pos hleft]
      dsimp only
      rw [applyTerrain_calls, List.append_nil, happend, happend, hdebug, hprev, hnew,
        List.nil_append]
    · rw [if_neg hleft]
      dsimp only
      rw [happend, happend, hdebug, hprev, hnew, List.nil_append]
  · rw [if_neg hchange, if_neg hchange]
    by_cases hleft : event.buttons &&& Qt.LeftButton ≠ 0
    · rw [if_pos hleft]
      dsimp only
      rw [applyTerrain_calls, List.append_nil, hdebug]
    · rw [if_neg hleft]
      dsimp only
      rw [hdebug]

/-- Each valid index among `previous` and `current` occurs once in the list of
repaints made for a hover change and nothing else occurs in it. -/
theorem count_hover_repaints (previous current index : QModelIndex) :
    ((if QModelIndex.isValid previous = true then [previous] else [])
      ++ (if previous ≠ current ∧ QModelIndex.isValid current = true then [current]
          else [])).count index
    = if QModelIndex.isValid index = true ∧ (index = previous ∨ index = current) then 1
      else 0 := by
  cases previous with
  | none =>
    cases current with
    | none => cases index <;> simp [QModelIndex.isValid]
    | some n =>
      cases index with
      | none => simp [QModelIndex.isValid]
      | some i =>
        by_cases h : n = i <;> simp [QModelIndex.isValid, List.count_cons, h, eq_comm]
  | some p =>
    cases current with
    | none =>
      cases index with
      | none => simp [QModelIndex.isValid]
      | some i =>
        by_cases h : p = i <;> simp [QModelIndex.isValid, List.count_cons, h, eq_comm]
    | some n =>
      cases index with
      | none =>
        by_cases hpn : p = n <;> simp [QModelIndex.isValid, List.count_cons, hpn]
      | some i =>
        by_cases hpn : p = n
        · subst hpn
          by_cases h : p = i <;> simp [QModelIndex.isValid, List.count_cons, h, eq_comm]
        · by_cases hp : p = i
          · subst hp
            have hnp : ¬n = p := fun h => hpn h.symm
            simp [QModelIndex.isValid, List.count_cons, hpn, hnp]
          · by_cases hn : n = i
            · subst hn
              simp [QModelIndex.isValid, List.count_cons, hpn, hp]
            · have hip : ¬i = p := fun h => hp h.symm
              have hin : ¬i = n := fun h => hn h.symm
              simp [QModelIndex.isValid, List.count_cons, hpn, hp, hn, hip, hin]

/-- C9: for a mouse move in terrain mode, when the pair (hovered index,
hovered corner) changes, every valid index among the previous and the new
hovered index is scheduled for repaint exactly once and no other index is (so
one repaint when the cell stays and only the corner changes, two for two
distinct valid cells, none for the invalid index); when the pair does not
change, no repaint is scheduled and the hover state stays. The viewport as a
whole is never repainted. -/
theorem mouseMoveEvent_repaints_hover_change (env : Env) (s : State) (event : QMouseEvent)
    (hedit : s.view.isEditTerrain = true) :
    ((s.view.hoveredIndex, s.view.hoveredCorner) ≠
        ((mouseMoveEvent env s event).state.view.hoveredIndex,
          (mouseMoveEvent env s event).state.view.hoveredCorner) →
      (∀ index : QModelIndex,
        (repaintedIndexes (mouseMoveEvent env s event).calls).count index =
          if QModelIndex.isValid index = true ∧
              (index = s.view.hoveredIndex ∨
                index = (mouseMoveEvent env s event).state.view.hoveredIndex) then 1
          else 0) ∧
      (∀ cell : Cell, s.view.hoveredIndex = some cell →
        (mouseMoveEvent env s event).state.view.hoveredIndex = some cell →
        repaintedIndexes (mouseMoveEvent env s event).calls = [some cell]) ∧
      (∀ cell cell' : Cell, s.view.hoveredIndex = some cell →
        (mouseMoveEvent env s event).state.view.hoveredIndex = some cell' → cell ≠ cell' →
        repaintedIndexes (mouseMoveEvent env s event).calls = [some cell, some cell'])) ∧
    ((s.view.hoveredIndex, s.view.hoveredCorner) =
        ((mouseMoveEvent env s event).state.view.hoveredIndex,
          (mouseMoveEvent env s event).state.view.hoveredCorner) →
      repaintedIndexes (mouseMoveEvent env s event).calls = [] ∧
      (mouseMoveEvent env s event).state.view = s.view) ∧
    Call.viewportUpdate ∉ (mouseMoveEvent env s event).calls := by
  have hrep := mouseMoveEvent_repainted env s event hedit
  simp only [hoveredIndex, hoveredCorner, ne_eq, Prod.mk.injEq, not_and_or] at hrep ⊢
  refine ⟨?_, ?_, ?_⟩
  · intro hchange
    rw [if_pos hchange] at hrep
    refine ⟨?_, ?_, ?_⟩
    · intro index
      rw [hrep]
      exact count_hover_repaints _ _ index
    · intro cell hprev hnew
      rw [hrep, hprev, hnew]
      simp [QModelIndex.isValid]
    · intro cell cell' hprev hnew hne
      rw [hrep, hprev, hnew]
      simp [QModelIndex.isValid, hne]
  · intro hsame
    have hnot : ¬(¬s.view.mHoveredIndex = (mouseMoveEvent env s event).state.view.mHoveredIndex ∨
        ¬s.view.mHoveredCorner = (mouseMoveEvent env s event).state.view.mHoveredCorner) := by
      rw [not_or, not_not, not_not]
      exact hsame
    rw [if_neg hnot] at hrep
    refine ⟨hrep, ?_⟩
    have hview := mouseMoveEvent_view env s event hedit
    exact view_ext _ _ (by rw [hview]) (by rw [hview]) (by rw [hview]) hsame.1.symm
      hsame.2.symm
  · unfold mouseMoveEvent
    have hmode : ¬((!s.view.mEditTerrain) = true) := by
      have h : s.view.mEditTerrain = true := hedit
      simp [h]
    rw [if_neg hmode]
    dsimp only
    generalize (if QModelIndex.isValid (env.indexAt event.pos) = true then
        (if event.pos.x > (env.visualRect (env.indexAt event.pos)).center.x then (1 : Int) else 0)
        + (if event.pos.y > (env.visualRect (env.indexAt event.pos)).center.y then 2 else 0)
      else 0) = corner
    have hdebug : Call.viewportUpdate ∉
        (if QModelIndex.isValid (env.indexAt event.pos) = true then
          [Call.qDebug event.pos (env.visualRect (env.indexAt event.pos)).center]
          else []) := by
      split <;> simp
    have hprev : Call.viewportUpdate ∉
        (if QModelIndex.isValid s.view.mHoveredIndex = true then
          [Call.update s.view.mHoveredIndex] else []) := by
      split <;> simp
    have hnew : Call.viewportUpdate ∉
        (if s.view.mHoveredIndex ≠ env.indexAt event.pos ∧
            QModelIndex.isValid (env.indexAt event.pos) = true then
          [Call.update (env.indexAt event.pos)] else []) := by
      split <;> simp
    by_cases hchange : s.view.mHoveredIndex ≠ env.indexAt event.pos ∨
        s.view.mHoveredCorner ≠ corner
    · rw [if_pos hchange]
      by_cases hleft : event.buttons &&& Qt.LeftButton ≠ 0
      · rw [if_pos hleft]
        dsimp only
        rw [applyTerrain_calls, List.append_nil, List.mem_append, List.mem_append]
        exact fun h => h.elim (fun h => h.elim hdebug hprev) hnew
      · rw [if_neg hleft]
        dsimp only
        rw [List.mem_append, List.mem_append]
        exact fun h => h.elim (fun h => h.elim hdebug hprev) hnew
    · rw [if_neg hchange]
      by_cases hleft : event.buttons &&& Qt.LeftButton ≠ 0
      · rw [if_pos hleft]
        dsimp only
        rw [applyTerrain_calls, List.append_nil]
        exact hdebug
      · rw [if_neg hleft]
        exact hdebug

theorem mouseMoveEvent_repaints_hover_change_witness :
    repaintedIndexes (mouseMoveEvent sampleEnv sampleHovering
        { pos := ⟨40, 3⟩, button := 0, buttons := 0 }).calls = [some ⟨0, 0⟩, some ⟨0, 1⟩] ∧
    repaintedIndexes (mouseMoveEvent sampleEnv sampleHovering hoverMove).calls = [] :=
  ⟨((mouseMoveEvent_repaints_hover_change sampleEnv sampleHovering
        { pos := ⟨40, 3⟩, button := 0, buttons := 0 } rfl).1 (by decide)).2.2
      ⟨0, 0⟩ ⟨0, 1⟩ rfl (by decide) (by decide),
   ((mouseMoveEvent_repaints_hover_change sampleEnv sampleHovering hoverMove rfl).2.1
      (by decide)).1⟩

/-- C10: in terrain mode `leaveEvent` makes the hovered index invalid,
scheduling the previously hovered cell for repaint when it was valid (and
nothing otherwise), so that a mouse press right after it changes no tile; with
terrain editing disabled `leaveEvent` changes nothing: hovered index, hovered
corner, terrain id and all tiles stay and no call is made. -/
theorem leaveEvent_clears_hover (env : Env) (s : State) :
    (s.view.isEditTerrain = true →
      QModelIndex.isValid (leaveEvent s).state.view.hoveredIndex = false ∧
      (QModelIndex.isValid s.view.hoveredIndex = true →
        (leaveEvent s).calls = [Call.update s.view.hoveredIndex]) ∧
      (QModelIndex.isValid s.view.hoveredIndex = false → (leaveEvent s).calls = []) ∧
      (leaveEvent s).state.tiles = s.tiles ∧
      (leaveEvent s).nullDeref = false ∧
      ∀ event : QMouseEvent,
        (mousePressEvent env (leaveEvent s).state event).state.tiles = s.tiles ∧
        (mousePressEvent env (leaveEvent s).state event).nullDeref = false) ∧
    (s.view.isEditTerrain = false →
      (leaveEvent s).state = s ∧ (leaveEvent s).calls = [] ∧
      (leaveEvent s).nullDeref = false) := by
  constructor
  · intro hedit
    have hedit' : s.view.mEditTerrain = true := hedit
    have hinvalid : QModelIndex.isValid (leaveEvent s).state.view.mHoveredIndex = false := by
      unfold leaveEvent
      have hmode : ¬((!s.view.mEditTerrain) = true) := by simp [hedit']
      rw [if_neg hmode]
      by_cases hv : QModelIndex.isValid s.view.mHoveredIndex = true
      · rw [if_pos hv]
        rfl
      · rw [if_neg hv]
        exact Bool.eq_false_iff.mpr hv
    have htiles : (leaveEvent s).state.tiles = s.tiles := by
      unfold leaveEvent
      split
      · rfl
      · split <;> rfl
    refine ⟨hinvalid, ?_, ?_, htiles, ?_, ?_⟩
    · intro hv
      have hv' : QModelIndex.isValid s.view.mHoveredIndex = true := hv
      simp [leaveEvent, hedit', hv', hoveredIndex]
    · intro hv
      have hv' : QModelIndex.isValid s.view.mHoveredIndex = false := hv
      simp [leaveEvent, hedit', hv']
    · unfold leaveEvent
      split
      · rfl
      · split <;> rfl
    · intro event
      unfold mousePressEvent
      split
      · rw [applyTerrain_invalid env _ hinvalid]
        exact ⟨htiles, rfl⟩
      · exact ⟨htiles, rfl⟩
  · intro hedit
    have hedit' : s.view.mEditTerrain = false := hedit
    simp [leaveEvent, hedit']

theorem leaveEvent_clears_hover_witness :
    (leaveEvent sampleHovering).calls = [Call.update (some ⟨0, 0⟩)] ∧
    (mousePressEvent sampleEnv (leaveEvent sampleHovering).state leftPress).state.tiles
      = sampleHovering.tiles ∧
    (leaveEvent sampleState).state = sampleState :=
  ⟨((leaveEvent_clears_hover sampleEnv sampleHovering).1 rfl).2.1 rfl,
   ((((leaveEvent_clears_hover sampleEnv sampleHovering).1 rfl).2.2.2.2.2) leftPress).1,
   ((leaveEvent_clears_hover sampleEnv sampleState).2 rfl).1⟩

end Claims

end Tiled
